import Mathlib

/-!
Verification of the query codec of the filters-query-params repository
(src/core.ts, src/serializers.ts, src/types.ts).

The embedding is shallow: JavaScript strings are lists of characters,
JavaScript objects are ordered association lists, and the ambient platform
facilities the code calls (the Number/String conversions, URLSearchParams,
JSON.parse, and the zod object validator) are modelled executably at the
level of detail the verified claims exercise.  Finite JavaScript numbers
are modelled as exact signed decimal values; the binary floating point
rounding of the host is outside the model.
-/

namespace FQP

/-- JavaScript strings are modelled as lists of characters. -/
abbrev JSStr := List Char

/-- Decimal digit test for characters. -/
def isDigitCh (c : Char) : Bool := '0' ≤ c && c ≤ '9'

/-- Numeric value of a decimal digit character. -/
def digitVal (c : Char) : Nat := c.toNat - '0'.toNat

/-- Character for a decimal digit. -/
def digitCh (d : Nat) : Char := Char.ofNat ('0'.toNat + d)

/-- Whitespace recognized by the model of the host string trim
(the host also trims some rarer Unicode spaces, which no claim exercises). -/
def isWsCh (c : Char) : Bool :=
  c = ' ' || c = '\t' || c = '\n' || c = '\r' || c = '\x0b' || c = '\x0c'

/-- Model of the host String.prototype.trim: drop whitespace at both ends. -/
def jsTrim (s : JSStr) : JSStr :=
  ((s.dropWhile isWsCh).reverse.dropWhile isWsCh).reverse

/-- Model of the host String.prototype.split with a one-character separator. -/
def splitOnCh (sep : Char) : JSStr → List JSStr
  | [] => [[]]
  | c :: t =>
    match splitOnCh sep t with
    | [] => [[c]]
    | h :: t2 => if c = sep then [] :: h :: t2 else (c :: h) :: t2

/-- Most-significant-first decimal digits of a natural number, fuel-driven
so that it is structurally recursive and evaluates by kernel reduction. -/
def natDigitsAux : Nat → Nat → List Nat
  | 0, _ => []
  | _ + 1, 0 => []
  | fuel + 1, n + 1 => natDigitsAux fuel ((n + 1) / 10) ++ [(n + 1) % 10]

/-- Most-significant-first decimal digits of a natural number (empty for 0). -/
def natDigits (n : Nat) : List Nat := natDigitsAux n n

/-- Read a most-significant-first digit list back as a natural number. -/
def digitsToNat (ds : List Nat) : Nat := ds.foldl (fun a d => a * 10 + d) 0

/-- Characters of a digit list. -/
def digitChars (ds : List Nat) : List Char := ds.map digitCh

/-- Decimal character rendering of a natural number (empty for 0). -/
def natChars (n : Nat) : List Char := digitChars (natDigits n)

/-- Model of the host String.prototype.toLowerCase on the ASCII range. -/
def toLowerCh (c : Char) : Char :=
  if 'A' ≤ c && c ≤ 'Z' then Char.ofNat (c.toNat + 32) else c

/-!
Finite ECMAScript numbers.  A value is sign times digits times 10 ^ exp,
kept in canonical form: no leading or trailing zero digit, and zero itself
is represented with an empty digit list, positive sign and exponent zero.
This is exactly the data the host shortest-round-trip number printing is
determined by, so printing then parsing is provably the identity on
canonical values.
-/

/-- A finite JavaScript number as an exact decimal value. -/
structure JSNum where
  neg : Bool
  digits : List Nat
  exp : Int
deriving DecidableEq, Repr

/-- The number zero. -/
def JSNum.zero : JSNum := ⟨false, [], 0⟩

/-- Canonical-form test: digits below ten, no leading or trailing zero digit,
and the zero value represented canonically. -/
def JSNum.canonical (x : JSNum) : Bool :=
  x.digits.all (· < 10) && x.digits.head? != some 0 && x.digits.getLast? != some 0 &&
  (!x.digits.isEmpty || (!x.neg && x.exp == 0))

/-- The digit block of a raw digit list with leading zeros removed. -/
def stripLead (ds : List Nat) : List Nat := ds.dropWhile (· == 0)

/-- The reversed digit block with leading and trailing zeros removed. -/
def stripCore (ds : List Nat) : List Nat := (stripLead ds).reverse.dropWhile (· == 0)

/-- Build a canonical number from a sign, a raw digit list and an exponent. -/
def JSNum.make (neg : Bool) (ds : List Nat) (e : Int) : JSNum :=
  if (stripCore ds).isEmpty then ⟨false, [], 0⟩
  else ⟨neg, (stripCore ds).reverse,
    e + (((stripLead ds).length - (stripCore ds).length : Nat) : Int)⟩

/-- Exponent rendering used by the host number printing: an explicit sign
followed by the decimal digits of the magnitude. -/
def expChars (e : Int) : List Char :=
  (if e < 0 then ['-'] else ['+']) ++ natChars e.natAbs

/-- The decimal-point position of the ECMAScript printing algorithm: with
k digits, the value is digits times 10 to the (n - k). -/
def numPointPos (x : JSNum) : Int := x.exp + (x.digits.length : Int)

/-- Unsigned body of the host number printing, by the four ECMAScript
cases on the decimal-point position n: plain integer (k ≤ n ≤ 21), point
inside the digits (0 < n ≤ 21 < is implied by the first case failing),
leading zeros (-6 < n ≤ 0), exponential otherwise. -/
def numBody (x : JSNum) : JSStr :=
  if 0 ≤ x.exp && numPointPos x ≤ 21 then
    digitChars x.digits ++ List.replicate x.exp.toNat '0'
  else if 0 < numPointPos x && numPointPos x ≤ 21 then
    (digitChars x.digits).take (numPointPos x).toNat ++
      '.' :: (digitChars x.digits).drop (numPointPos x).toNat
  else if -6 < numPointPos x && numPointPos x ≤ 0 then
    '0' :: '.' :: (List.replicate (-numPointPos x).toNat '0' ++ digitChars x.digits)
  else
    match digitChars x.digits with
    | [] => []
    | d :: rest =>
      d :: ((if rest.isEmpty then [] else '.' :: rest) ++ 'e' :: expChars (numPointPos x - 1))

/-- Model of the host number-to-string conversion (ECMAScript
Number::toString in base 10) on finite values in canonical form. -/
def numToStr (x : JSNum) : JSStr :=
  if x.digits.isEmpty then ['0']
  else (if x.neg then ['-'] else []) ++ numBody x

/-- Hexadecimal digit test. -/
def isHexCh (c : Char) : Bool :=
  isDigitCh c || ('a' ≤ c && c ≤ 'f') || ('A' ≤ c && c ≤ 'F')

/-- Octal digit test. -/
def isOctCh (c : Char) : Bool := '0' ≤ c && c ≤ '7'

/-- Binary digit test. -/
def isBinCh (c : Char) : Bool := c = '0' || c = '1'

/-- Numeric value of a hexadecimal digit character. -/
def hexVal (c : Char) : Nat :=
  if isDigitCh c then digitVal c
  else if 'a' ≤ c && c ≤ 'f' then c.toNat - 'a'.toNat + 10
  else c.toNat - 'A'.toNat + 10

/-- Read a most-significant-first digit list in base b. -/
def radixToNat (b : Nat) (ds : List Nat) : Nat := ds.foldl (fun a d => a * b + d) 0

/-- The literal Infinity recognized by the host string-to-number conversion. -/
def infinityChars : JSStr := ['I', 'n', 'f', 'i', 'n', 'i', 't', 'y']

/-- A nonempty digit run consuming the whole rest, with a sign to apply. -/
def parseExpDigits (sgn : Bool) (ds : JSStr) : Option Int :=
  if ds.isEmpty then none
  else if ds.all isDigitCh then
    some (if sgn then -(digitsToNat (ds.map digitVal) : Int)
      else (digitsToNat (ds.map digitVal) : Int))
  else none

/-- Exponent part of a decimal numeric literal, after the letter e: an
optional sign and a nonempty digit run consuming the whole rest. -/
def parseExpTail : JSStr → Option Int
  | [] => none
  | c :: t =>
    if c = '+' then parseExpDigits false t
    else if c = '-' then parseExpDigits true t
    else parseExpDigits false (c :: t)

/-- After the integer digits, the fraction digits, and the rest beyond
them: an optional exponent closing the literal. -/
def parseDecFrac (neg : Bool) (ip fp : JSStr) : JSStr → Option JSNum
  | [] =>
    if ip.isEmpty && fp.isEmpty then none
    else some (JSNum.make neg ((ip ++ fp).map digitVal) (-(fp.length : Int)))
  | c :: r4 =>
    if ip.isEmpty && fp.isEmpty then none
    else if c = 'e' || c = 'E' then
      match parseExpTail r4 with
      | some e => some (JSNum.make neg ((ip ++ fp).map digitVal) (e - (fp.length : Int)))
      | none => none
    else none

/-- After the integer digits: the rest is empty, a fraction, or an
exponent. -/
def parseDecBody (neg : Bool) (ip : JSStr) : JSStr → Option JSNum
  | [] => if ip.isEmpty then none else some (JSNum.make neg (ip.map digitVal) 0)
  | '.' :: r2 => parseDecFrac neg ip (r2.takeWhile isDigitCh) (r2.dropWhile isDigitCh)
  | c :: r4 =>
    if (c = 'e' || c = 'E') && !ip.isEmpty then
      match parseExpTail r4 with
      | some e => some (JSNum.make neg (ip.map digitVal) e)
      | none => none
    else none

/-- Decimal part of the host string-to-number conversion, after an optional
sign: digits, an optional fraction, an optional exponent, or the Infinity
literal (which is not finite, hence none). -/
def parseDecAfterSign (neg : Bool) (r : JSStr) : Option JSNum :=
  if r = infinityChars then none
  else parseDecBody neg (r.takeWhile isDigitCh) (r.dropWhile isDigitCh)

/-- Nonempty all-digit run in base b consuming the whole rest. -/
def parseRadix (b : Nat) (isDig : Char → Bool) (toV : Char → Nat) (r : JSStr) :
    Option JSNum :=
  if r.isEmpty then none
  else if r.all isDig then
    some (JSNum.make false (natDigits (radixToNat b (r.map toV))) 0)
  else none

/-- Model of the host string-to-number conversion (ECMAScript ToNumber on
strings) restricted to its finite results: some canonical value when the
string denotes a finite number, none when it denotes NaN or an infinity.
The model computes exact decimal values; the host rounds to binary floating
point, which no verified claim depends on. -/
def strToNum (s : JSStr) : Option JSNum :=
  match jsTrim s with
  | [] => some JSNum.zero
  | c :: t =>
    if c = '0' then
      match t with
      | c2 :: t2 =>
        if c2 = 'x' || c2 = 'X' then parseRadix 16 isHexCh hexVal t2
        else if c2 = 'o' || c2 = 'O' then parseRadix 8 isOctCh digitVal t2
        else if c2 = 'b' || c2 = 'B' then parseRadix 2 isBinCh digitVal t2
        else parseDecAfterSign false (c :: t)
      | [] => parseDecAfterSign false (c :: t)
    else if c = '+' then parseDecAfterSign false t
    else if c = '-' then parseDecAfterSign true t
    else parseDecAfterSign false (c :: t)

/-!
JavaScript values, as far as the codec manipulates them.
-/

/-- A JavaScript value. -/
inductive JSValue where
  | undef
  | null
  | bool (b : Bool)
  | num (x : JSNum)
  | str (s : JSStr)
  | date (t : Int)
  | arr (xs : List JSValue)
  | obj (fields : List (JSStr × JSValue))

/-- Sign-and-digits rendering of an integer (used only by the placeholder
date renderings below). -/
def intChars (i : Int) : JSStr :=
  (if i < 0 then ['-'] else []) ++ (if i.natAbs = 0 then ['0'] else natChars i.natAbs)

/-- Model of the host Date ISO rendering.  No verified claim exercises
dates; the model only needs an injective rendering of the time value. -/
def dateToISO (t : Int) : JSStr := intChars t

/-- Model of the host generic Date-to-string rendering.  No verified claim
exercises dates. -/
def dateToStr (t : Int) : JSStr := intChars t

/-- Model of the host Date constructor on strings.  No verified claim
exercises date parsing; the model conservatively treats every string as an
invalid date, so date coercion always falls back to the raw string. -/
def jsDateParse (_s : JSStr) : Option Int := none

/-- Nesting depth of a value, used only to seed the fuel of the generic
ToString conversion below. -/
def jsDepth : JSValue → Nat
  | .arr xs => 1 + (xs.attach.map fun p => jsDepth p.1).foldr max 0
  | .obj fs => 1 + (fs.attach.map fun p => jsDepth p.1.2).foldr max 0
  | _ => 0
decreasing_by
  · have := List.sizeOf_lt_of_mem p.2
    simp_wf
    omega
  · have h1 := List.sizeOf_lt_of_mem p.2
    have h2 : sizeOf p.1.2 < sizeOf p.1 := by
      obtain ⟨⟨a, b⟩, hp⟩ := p
      simp
    simp_wf
    omega

/-- Fuel-driven worker for the host generic ToString conversion; the fuel
only matters for nested arrays. -/
def jsToStringF : Nat → JSValue → JSStr
  | _, .undef => "undefined".toList
  | _, .null => "null".toList
  | _, .bool true => "true".toList
  | _, .bool false => "false".toList
  | _, .num x => numToStr x
  | _, .str s => s
  | _, .date t => dateToStr t
  | 0, .arr _ => []
  | fuel + 1, .arr xs =>
    List.intercalate [','] (xs.map fun x =>
      match x with
      | .undef => []
      | .null => []
      | _ => jsToStringF fuel x)
  | _, .obj _ => "[object Object]".toList

/-- Model of the host generic ToString conversion (an array renders as its
elements joined by commas, with null and undefined elements rendering
empty, as Array.prototype.toString does). -/
def jsToString (v : JSValue) : JSStr :=
  match v with
  | .arr xs => jsToStringF (jsDepth (.arr xs)) (.arr xs)
  | v => jsToStringF 0 v

/-!
Model of the ambient query-string facility (URLSearchParams), spec section
6: percent-encoding per application/x-www-form-urlencoded, an ordered
multimap of pairs, and the set/append/get/toString operations the codec
uses.
-/

/-- Characters serialized verbatim by the urlencoded format. -/
def isUrlSafeCh (c : Char) : Bool :=
  ('A' ≤ c && c ≤ 'Z') || ('a' ≤ c && c ≤ 'z') || isDigitCh c ||
  c = '*' || c = '-' || c = '.' || c = '_'

/-- Uppercase hexadecimal digit character. -/
def hexCh (d : Nat) : Char :=
  if d < 10 then digitCh d else Char.ofNat ('A'.toNat + (d - 10))

/-- Percent-escape of one byte. -/
def byteHex (b : Nat) : List Char := ['%', hexCh (b / 16), hexCh (b % 16)]

/-- UTF-8 bytes of a Unicode scalar value. -/
def utf8Bytes (n : Nat) : List Nat :=
  if n < 0x80 then [n]
  else if n < 0x800 then [0xC0 + n / 64, 0x80 + n % 64]
  else if n < 0x10000 then [0xE0 + n / 4096, 0x80 + n / 64 % 64, 0x80 + n % 64]
  else [0xF0 + n / 262144, 0x80 + n / 4096 % 64, 0x80 + n / 64 % 64, 0x80 + n % 64]

/-- Urlencoded serialization of one character. -/
def encodeCh (c : Char) : List Char :=
  if isUrlSafeCh c then [c]
  else if c = ' ' then ['+']
  else ((utf8Bytes c.toNat).map byteHex).flatten

/-- Urlencoded serialization of a string. -/
def encodeStr (s : JSStr) : List Char := (s.map encodeCh).flatten

/-- Decoder token: a plain character or a percent-decoded byte. -/
inductive UrlTok where
  | ch (c : Char)
  | byte (b : Nat)
deriving DecidableEq, Repr

/-- First decoding stage: plus becomes space, a well-formed percent escape
becomes a byte, everything else is a plain character. -/
def urlTokens : List Char → List UrlTok
  | [] => []
  | '%' :: h1 :: h2 :: r =>
    if isHexCh h1 && isHexCh h2 then .byte (16 * hexVal h1 + hexVal h2) :: urlTokens r
    else .ch '%' :: urlTokens (h1 :: h2 :: r)
  | '+' :: r => .ch ' ' :: urlTokens r
  | c :: r => .ch c :: urlTokens r

/-- Continuation-byte test. -/
def isContByte (b : Nat) : Bool := 0x80 ≤ b && b < 0xC0

/-- Decode one UTF-8 scalar from a byte list. -/
def utf8DecodeOne : List Nat → Option (Nat × List Nat)
  | [] => none
  | b :: r =>
    if b < 0x80 then some (b, r)
    else if 0xC0 ≤ b && b < 0xE0 then
      match r with
      | b1 :: r1 => if isContByte b1 then some ((b - 0xC0) * 64 + (b1 - 0x80), r1) else none
      | [] => none
    else if 0xE0 ≤ b && b < 0xF0 then
      match r with
      | b1 :: b2 :: r2 =>
        if isContByte b1 && isContByte b2 then
          some ((b - 0xE0) * 4096 + (b1 - 0x80) * 64 + (b2 - 0x80), r2)
        else none
      | _ => none
    else if 0xF0 ≤ b && b < 0xF8 then
      match r with
      | b1 :: b2 :: b3 :: r3 =>
        if isContByte b1 && isContByte b2 && isContByte b3 then
          some ((b - 0xF0) * 262144 + (b1 - 0x80) * 4096 + (b2 - 0x80) * 64 + (b3 - 0x80), r3)
        else none
      | _ => none
    else none

/-- Scalar to character, with the replacement character for invalid data. -/
def scalarToCh (n : Nat) : Char :=
  if h : n.isValidChar then Char.ofNatAux n h else '�'

/-- Decode a byte list as UTF-8, fuel-driven. -/
def utf8DecodeList : Nat → List Nat → List Char
  | 0, _ => []
  | _, [] => []
  | fuel + 1, bs =>
    match utf8DecodeOne bs with
    | some (n, r) => scalarToCh n :: utf8DecodeList fuel r
    | none => '�' :: utf8DecodeList fuel bs.tail

/-- Leading run of byte tokens. -/
def tokBytes : List UrlTok → List Nat × List UrlTok
  | .byte b :: r =>
    let p := tokBytes r
    (b :: p.1, p.2)
  | r => ([], r)

/-- Second decoding stage: emit plain characters, UTF-8-decode maximal byte
runs; fuel-driven. -/
def decodeToks : Nat → List UrlTok → List Char
  | 0, _ => []
  | _, [] => []
  | fuel + 1, .ch c :: r => c :: decodeToks fuel r
  | fuel + 1, .byte b :: r =>
    let p := tokBytes (.byte b :: r)
    utf8DecodeList p.1.length p.1 ++ decodeToks fuel p.2

/-- Urlencoded decoding of a string. -/
def urlDecode (s : List Char) : List Char :=
  decodeToks (urlTokens s).length (urlTokens s)

/-- The ordered key/value multimap held by a URLSearchParams object. -/
abbrev Params := List (JSStr × JSStr)

/-- URLSearchParams.set: replace the first occurrence of the key and drop
the others, appending when the key is absent. -/
def paramsSet : Params → JSStr → JSStr → Params
  | [], k, v => [(k, v)]
  | (k0, v0) :: rest, k, v =>
    if k0 = k then (k, v) :: rest.filter (fun p => p.1 ≠ k)
    else (k0, v0) :: paramsSet rest k v

/-- URLSearchParams.append. -/
def paramsAppend (ps : Params) (k v : JSStr) : Params := ps ++ [(k, v)]

/-- URLSearchParams.get: the value of the first occurrence. -/
def paramsGet (k : JSStr) : Params → Option JSStr
  | [] => none
  | (k0, v) :: rest => if k0 = k then some v else paramsGet k rest

/-- URLSearchParams.toString: urlencoded pairs joined by ampersands. -/
def paramsToString (ps : Params) : JSStr :=
  List.intercalate ['&'] (ps.map fun p => encodeStr p.1 ++ '=' :: encodeStr p.2)

/-- Split a raw segment at its first equals sign; a segment without one is
all key with an empty value. -/
def splitFirstEq (seg : JSStr) : JSStr × JSStr :=
  (seg.takeWhile (· ≠ '='), (seg.dropWhile (· ≠ '=')).tail)

/-- Model of the URLSearchParams string constructor: split on ampersands,
drop empty segments, split each segment at its first equals sign, decode
key and value. -/
def urlParseParams (s : JSStr) : Params :=
  ((splitOnCh '&' s).filter (fun seg => !seg.isEmpty)).map fun seg =>
    (urlDecode (splitFirstEq seg).1, urlDecode (splitFirstEq seg).2)

/-!
Model of the ambient JSON.parse and JSON.stringify, used by the json array
serializer.
-/

/-- JSON whitespace. -/
def jsonWs (c : Char) : Bool := c = ' ' || c = '\t' || c = '\n' || c = '\r'

/-- Skip JSON whitespace. -/
def skipWs (s : JSStr) : JSStr := s.dropWhile jsonWs

/-- Fraction part of a JSON number. -/
def jsonFrac : JSStr → Option (List Char × JSStr)
  | '.' :: r2 =>
    let fp := r2.takeWhile isDigitCh
    if fp.isEmpty then none else some (fp, r2.dropWhile isDigitCh)
  | r => some ([], r)

/-- Exponent digits of a JSON number, after the letter e. -/
def jsonExpAfter (r : JSStr) : Option (Int × JSStr) :=
  let p : Bool × JSStr :=
    match r with
    | '+' :: t => (false, t)
    | '-' :: t => (true, t)
    | _ => (false, r)
  let ds := p.2.takeWhile isDigitCh
  if ds.isEmpty then none
  else
    let v : Int := (digitsToNat (ds.map digitVal) : Int)
    some (if p.1 then -v else v, p.2.dropWhile isDigitCh)

/-- Exponent part of a JSON number. -/
def jsonExp : JSStr → Option (Int × JSStr)
  | 'e' :: r => jsonExpAfter r
  | 'E' :: r => jsonExpAfter r
  | r => some (0, r)

/-- A JSON number literal: optional minus, integer part without a leading
zero, optional fraction and exponent; returns the unconsumed rest. -/
def jsonNumber (s : JSStr) : Option (JSNum × JSStr) :=
  let p0 : Bool × JSStr :=
    match s with
    | '-' :: t => (true, t)
    | _ => (false, s)
  let ip := p0.2.takeWhile isDigitCh
  if ip.isEmpty then none
  else if 1 < ip.length && ip.head? == some '0' then none
  else
    match jsonFrac (p0.2.dropWhile isDigitCh) with
    | none => none
    | some (fp, r2) =>
      match jsonExp r2 with
      | none => none
      | some (e, r3) =>
        some (JSNum.make p0.1 ((ip ++ fp).map digitVal) (e - (fp.length : Int)), r3)

/-- Body of a JSON string literal after the opening quote, fuel-driven.
Surrogate pairs in u-escapes are decoded individually, which no verified
claim exercises. -/
def jsonStringF : Nat → JSStr → Option (JSStr × JSStr)
  | 0, _ => none
  | _, [] => none
  | _ + 1, '"' :: r => some ([], r)
  | fuel + 1, '\\' :: esc =>
    match esc with
    | '"' :: r => (jsonStringF fuel r).map fun p => ('"' :: p.1, p.2)
    | '\\' :: r => (jsonStringF fuel r).map fun p => ('\\' :: p.1, p.2)
    | '/' :: r => (jsonStringF fuel r).map fun p => ('/' :: p.1, p.2)
    | 'b' :: r => (jsonStringF fuel r).map fun p => ('\x08' :: p.1, p.2)
    | 'f' :: r => (jsonStringF fuel r).map fun p => ('\x0c' :: p.1, p.2)
    | 'n' :: r => (jsonStringF fuel r).map fun p => ('\n' :: p.1, p.2)
    | 'r' :: r => (jsonStringF fuel r).map fun p => ('\r' :: p.1, p.2)
    | 't' :: r => (jsonStringF fuel r).map fun p => ('\t' :: p.1, p.2)
    | 'u' :: h1 :: h2 :: h3 :: h4 :: r =>
      if isHexCh h1 && isHexCh h2 && isHexCh h3 && isHexCh h4 then
        (jsonStringF fuel r).map fun p =>
          (scalarToCh (((hexVal h1 * 16 + hexVal h2) * 16 + hexVal h3) * 16 + hexVal h4) :: p.1,
           p.2)
      else none
    | _ => none
  | fuel + 1, c :: r =>
    if c.toNat < 0x20 then none
    else (jsonStringF fuel r).map fun p => (c :: p.1, p.2)

mutual

/-- A JSON value, fuel-driven; returns the unconsumed rest. -/
def jsonValueF : Nat → JSStr → Option (JSValue × JSStr)
  | 0, _ => none
  | fuel + 1, s =>
    match s with
    | 'n' :: 'u' :: 'l' :: 'l' :: r => some (.null, r)
    | 't' :: 'r' :: 'u' :: 'e' :: r => some (.bool true, r)
    | 'f' :: 'a' :: 'l' :: 's' :: 'e' :: r => some (.bool false, r)
    | '"' :: r => (jsonStringF (r.length + 1) r).map fun p => (.str p.1, p.2)
    | '[' :: r =>
      match skipWs r with
      | ']' :: r2 => some (.arr [], r2)
      | r1 => (jsonElemsF fuel r1).map fun p => (.arr p.1, p.2)
    | '\x7b' :: r =>
      match skipWs r with
      | '\x7d' :: r2 => some (.obj [], r2)
      | r1 => (jsonMembersF fuel r1).map fun p => (.obj p.1, p.2)
    | s => (jsonNumber s).map fun p => (.num p.1, p.2)

/-- Comma-separated JSON array elements up to the closing bracket. -/
def jsonElemsF : Nat → JSStr → Option (List JSValue × JSStr)
  | 0, _ => none
  | fuel + 1, s =>
    match jsonValueF fuel (skipWs s) with
    | none => none
    | some (v, r) =>
      match skipWs r with
      | ',' :: r2 =>
        match jsonElemsF fuel r2 with
        | none => none
        | some (vs, r3) => some (v :: vs, r3)
      | ']' :: r2 => some ([v], r2)
      | _ => none

/-- Comma-separated JSON object members up to the closing brace. -/
def jsonMembersF : Nat → JSStr → Option (List (JSStr × JSValue) × JSStr)
  | 0, _ => none
  | fuel + 1, s =>
    match skipWs s with
    | '"' :: r =>
      match jsonStringF (r.length + 1) r with
      | none => none
      | some (key, r1) =>
        match skipWs r1 with
        | ':' :: r2 =>
          match jsonValueF fuel (skipWs r2) with
          | none => none
          | some (v, r3) =>
            match skipWs r3 with
            | ',' :: r4 =>
              match jsonMembersF fuel r4 with
              | none => none
              | some (ms, r5) => some ((key, v) :: ms, r5)
            | '\x7d' :: r4 => some ([(key, v)], r4)
            | _ => none
        | _ => none
    | _ => none

end

/-- Model of the host JSON.parse restricted to its success/failure shape:
some value on well-formed input, none where the host raises a SyntaxError. -/
def jsonParse (s : JSStr) : Option JSValue :=
  match jsonValueF (s.length + 1) (skipWs s) with
  | some (v, rest) => if (skipWs rest).isEmpty then some v else none
  | none => none

/-- JSON string escaping of one character. -/
def jsonEscCh (c : Char) : List Char :=
  if c = '"' then ['\\', '"']
  else if c = '\\' then ['\\', '\\']
  else if c = '\n' then ['\\', 'n']
  else if c = '\t' then ['\\', 't']
  else if c = '\r' then ['\\', 'r']
  else if c = '\x08' then ['\\', 'b']
  else if c = '\x0c' then ['\\', 'f']
  else if c.toNat < 0x20 then
    ['\\', 'u', '0', '0', hexCh (c.toNat / 16), hexCh (c.toNat % 16)]
  else [c]

/-- A JSON string literal. -/
def jsonQuote (s : JSStr) : JSStr := '"' :: (s.map jsonEscCh).flatten ++ ['"']

/-- Model of the host JSON.stringify on an array of strings, which is the
only shape the json serializer stringifies (its items were converted to
strings by buildQuery first). -/
def jsonStringifyStrArr (vs : List JSStr) : JSStr :=
  '[' :: List.intercalate [','] (vs.map jsonQuote) ++ [']']

/-!
The schema capability (spec sections 3 and 6).  A schema is a fixed list
of named fields; each field exposes its primitive kind after unwrapping
optional/nullable wrappers (the source unwraps them recursively with
getInnerType, so the model carries the unwrapped kind together with an
optionality flag) and the whole schema validates a plain mapping the way
the zod object validator does: unknown keys are stripped, each declared
field must be absent (optional only), undefined (optional only), or a
value of the declared kind; offending fields are reported in a structured
validation error.
-/

/-- Declared kind of a schema field, after unwrapping. -/
inductive Kind where
  | str
  | num
  | bool
  | date
  | arr (elem : Kind)
deriving DecidableEq, Repr

/-- A schema field: unwrapped kind plus optionality. -/
structure SField where
  kind : Kind
  optional : Bool
deriving DecidableEq, Repr

/-- The shape of an object schema: named fields in declaration order. -/
abbrev Schema := List (JSStr × SField)

/-- An ordered plain mapping, as a JavaScript object. -/
abbrev Mapping := List (JSStr × JSValue)

/-- First binding of a key in a mapping. -/
def mLookup (k : JSStr) : Mapping → Option JSValue
  | [] => none
  | (k0, v) :: rest => if k0 = k then some v else mLookup k rest

/-- Field of a name in a schema shape. -/
def sLookup (k : JSStr) : Schema → Option SField
  | [] => none
  | (k0, f) :: rest => if k0 = k then some f else sLookup k rest

/-- Does a value have the declared kind? -/
def typeMatches : Kind → JSValue → Bool
  | .str, .str _ => true
  | .num, .num _ => true
  | .bool, .bool _ => true
  | .date, .date _ => true
  | .arr ek, .arr xs => xs.all fun x => typeMatches ek x
  | _, _ => false

/-- Errors a parse can surface: the schema validation error, or a host
TypeError (calling an array method on a non-array). -/
inductive QErr where
  | validation (fields : List JSStr)
  | typeError
deriving DecidableEq, Repr

/-- Does this field accept this present value? -/
def fieldAccepts (f : SField) (v : JSValue) : Bool :=
  (f.optional && (match v with | .undef => true | _ => false)) || typeMatches f.kind v

/-- The offending declared fields of a validation, in declaration order. -/
def zodErrs (shape : Schema) (m : Mapping) : List JSStr :=
  shape.filterMap fun kf =>
    match mLookup kf.1 m with
    | none => if kf.2.optional then none else some kf.1
    | some v => if fieldAccepts kf.2 v then none else some kf.1

/-- The mapping rebuilt from the declared fields only (unknown keys are
stripped), in declaration order. -/
def zodRebuild (shape : Schema) (m : Mapping) : Mapping :=
  shape.filterMap fun kf => (mLookup kf.1 m).map fun v => (kf.1, v)

/-- Model of the zod object validator in its default strip mode. -/
def zodParse (shape : Schema) (m : Mapping) : Except QErr Mapping :=
  if (zodErrs shape m).isEmpty then .ok (zodRebuild shape m)
  else .error (.validation (zodErrs shape m))

/-!
The codec itself: object cleaner, array serializer strategies, value
coercion, query parser, query builder, URL composer (src/core.ts and
src/serializers.ts).
-/

/-- Cleaning options (src/types.ts CleanOptions). -/
structure CleanOptions where
  dropEmpty : Bool := false
  trimStrings : Bool := false

/-- The isEmpty helper of src/core.ts: undefined, null, or a string that is
empty after trimming. -/
def isEmptyJS : JSValue → Bool
  | .undef => true
  | .null => true
  | .str s => (jsTrim s).isEmpty
  | _ => false

/-- One entry of cleanObject: trim string values when trimStrings, drop
empty values when dropEmpty. -/
def cleanEntry (opts : CleanOptions) (kv : JSStr × JSValue) : Option (JSStr × JSValue) :=
  match kv with
  | (k, .str s) =>
    if opts.trimStrings then
      let t := jsTrim s
      if opts.dropEmpty && t.isEmpty then none else some (k, .str t)
    else if opts.dropEmpty && isEmptyJS (.str s) then none else some (k, .str s)
  | (k, v) => if opts.dropEmpty && isEmptyJS v then none else some (k, v)

/-- cleanObject of src/core.ts: entry-wise cleaning, preserving order. -/
def cleanObject (m : Mapping) (opts : CleanOptions) : Mapping :=
  m.filterMap (cleanEntry opts)

/-- The three array wire formats (src/types.ts ArrayFormat). -/
inductive ArrayFormat where
  | rep
  | comma
  | json
deriving DecidableEq, Repr

/-- An array serializer strategy (src/types.ts Serializer).  serializeArray
receives items already rendered to strings by buildQuery; deserializeArray
returns whatever JavaScript value the strategy produces (for the json
strategy this is the raw JSON.parse result, not necessarily an array). -/
structure Serializer where
  serializeArray : JSStr → List JSStr → List (JSStr × JSStr)
  deserializeArray : JSStr → List JSStr → JSValue

/-- Serializer for repeat format (src/serializers.ts repeatSerializer). -/
def repeatSerializer : Serializer where
  serializeArray := fun key values => values.map fun v => (key, v)
  deserializeArray := fun _ entries => .arr (entries.map .str)

/-- Serializer for comma format (src/serializers.ts commaSerializer); a
missing or empty first entry is falsy, giving an empty array. -/
def commaSerializer : Serializer where
  serializeArray := fun key values => [(key, List.intercalate [','] values)]
  deserializeArray := fun _ entries =>
    match entries with
    | [] => .arr []
    | e :: _ => if e.isEmpty then .arr [] else .arr ((splitOnCh ',' e).map .str)

/-- Serializer for JSON format (src/serializers.ts jsonSerializer): parse
the first entry (or the empty-array literal when absent); a parse failure
is caught and yields an empty array. -/
def jsonSerializer : Serializer where
  serializeArray := fun key values => [(key, jsonStringifyStrArr values)]
  deserializeArray := fun _ entries =>
    match jsonParse (entries.headD ('[' :: [']'])) with
    | some v => v
    | none => .arr []

/-- resolveArraySerializer of src/serializers.ts. -/
def resolveArraySerializer : ArrayFormat → Serializer
  | .json => jsonSerializer
  | .comma => commaSerializer
  | .rep => repeatSerializer

/-- coerceValue of src/core.ts: best-effort string upgrade to the declared
kind; the number, boolean and date kinds fall back to the raw string when
the upgrade fails, every other kind passes the raw string through. -/
def coerceValue (kind : Kind) (value : JSStr) : JSValue :=
  match kind with
  | .num =>
    match strToNum value with
    | some x => .num x
    | none => .str value
  | .bool =>
    let v := value.map toLowerCh
    if v = ['1'] || v = "true".toList || v = "yes".toList then .bool true
    else if v = ['0'] || v = "false".toList || v = "no".toList then .bool false
    else .str value
  | .date =>
    match jsDateParse value with
    | some t => .date t
    | none => .str value
  | .arr _ => .str value
  | .str => .str value

/-- Parse options (src/types.ts ParseOptions); the option chain
arrayKeyFormat or arrayFormat or repeat follows the source's falsy-chain. -/
structure ParseOptions where
  stripUnknown : Bool := false
  trimStrings : Bool := false
  dropEmpty : Bool := false
  coerceTypes : Bool := false
  arrayFormat : Option ArrayFormat := none
  arrayKeyFormat : List (JSStr × ArrayFormat) := []

/-- Build options (src/types.ts BuildOptions). -/
structure BuildOptions where
  stripUnknown : Bool := false
  trimStrings : Bool := false
  dropEmpty : Bool := false
  encodeDate : Bool := false
  arrayFormat : Option ArrayFormat := none
  arrayKeyFormat : List (JSStr × ArrayFormat) := []

/-- Per-key array format override lookup. -/
def fmtLookup (k : JSStr) : List (JSStr × ArrayFormat) → Option ArrayFormat
  | [] => none
  | (k0, f) :: rest => if k0 = k then some f else fmtLookup k rest

/-- Group raw entries by key, in encounter order (the entriesByKey map of
parseQuery). -/
def addPair (acc : List (JSStr × List JSStr)) (k v : JSStr) : List (JSStr × List JSStr) :=
  match acc with
  | [] => [(k, [v])]
  | (k0, vs) :: rest =>
    if k0 = k then (k0, vs ++ [v]) :: rest else (k0, vs) :: addPair rest k v

/-- Grouped multimap of a pair list. -/
def groupPairs (ps : Params) : List (JSStr × List JSStr) :=
  ps.foldl (fun acc p => addPair acc p.1 p.2) []

/-- Strip one leading question mark, as parseQuery does on string input. -/
def stripQMark : JSStr → JSStr
  | [] => []
  | c :: t => if c = '?' then t else c :: t

/-- The value an unknown key carries into the interim mapping: a single
string for one occurrence, an ordered sequence for more (and the undefined
read of entries[0] for the unreachable empty group). -/
def entriesVal : List JSStr → JSValue
  | [] => .undef
  | [e] => .str e
  | es => .arr (es.map .str)

/-- Lookup in a grouped multimap. -/
def gLookup (k : JSStr) : List (JSStr × List JSStr) → Option (List JSStr)
  | [] => none
  | (k0, es) :: rest => if k0 = k then some es else gLookup k rest

/-- One grouped key of the parseQuery loop: unknown keys carried or
stripped, array fields deserialized per strategy and element-coerced,
scalar fields last-write-wins and coerced.  A json payload that is not an
array makes the source call .map on a non-array, a TypeError. -/
def interimEntry (schema : Schema) (o : ParseOptions) (k : JSStr) (entries : List JSStr) :
    Except QErr (Option (JSStr × JSValue)) :=
  match sLookup k schema with
  | none =>
    if o.stripUnknown then .ok none
    else .ok (some (k, entriesVal entries))
  | some f =>
    match f.kind with
    | .arr ek =>
      let fmt := ((fmtLookup k o.arrayKeyFormat).orElse fun _ => o.arrayFormat).getD .rep
      let ser := resolveArraySerializer fmt
      match ser.deserializeArray k entries with
      | .arr xs =>
        .ok (some (k, .arr (xs.map fun val =>
          let s := jsToString val
          if o.coerceTypes then coerceValue ek s else .str s)))
      | _ => .error .typeError
    | kd =>
      match entries.getLast? with
      | some raw => .ok (some (k, if o.coerceTypes then coerceValue kd raw else .str raw))
      | none => .ok (some (k, .undef))

/-- The interim mapping of parseQuery, built over the grouped keys in
order; the first error aborts, as a thrown exception does. -/
def buildInterim (schema : Schema) (o : ParseOptions) :
    List (JSStr × List JSStr) → Except QErr Mapping
  | [] => .ok []
  | (k, es) :: rest =>
    match interimEntry schema o k es with
    | .error e => .error e
    | .ok none => buildInterim schema o rest
    | .ok (some kv) => (buildInterim schema o rest).map fun m => kv :: m

/-- The cleaned interim mapping of parseQuery, before schema validation. -/
def parseCleaned (schema : Schema) (input : JSStr) (o : ParseOptions) : Except QErr Mapping :=
  (buildInterim schema o (groupPairs (urlParseParams (stripQMark input)))).map
    fun interim => cleanObject interim ⟨o.dropEmpty, o.trimStrings⟩

/-- parseQuery of src/core.ts on string input. -/
def parseQuery (schema : Schema) (input : JSStr) (o : ParseOptions) : Except QErr Mapping :=
  match parseCleaned schema input o with
  | .error e => .error e
  | .ok cleaned => zodParse schema cleaned

/-- String rendering of one value in buildQuery: the ISO form for a Date
under encodeDate, the generic ToString otherwise. -/
def encodedScalar (o : BuildOptions) (v : JSValue) : JSStr :=
  match v with
  | .date t => if o.encodeDate then dateToISO t else jsToString (.date t)
  | v => jsToString v

/-- The pairs an array field serializes to in buildQuery: items rendered to
strings, then handed to the chosen strategy. -/
def buildArrayPairs (o : BuildOptions) (k : JSStr) (xs : List JSValue) : List (JSStr × JSStr) :=
  (resolveArraySerializer
      (((fmtLookup k o.arrayKeyFormat).orElse fun _ => o.arrayFormat).getD .rep)).serializeArray
    k (xs.map fun x => encodedScalar o x)

/-- One entry of the buildQuery loop. -/
def buildEntry (schema : Schema) (o : BuildOptions) (params : Params)
    (k : JSStr) (v : JSValue) : Params :=
  match sLookup k schema with
  | none =>
    if o.stripUnknown then params
    else
      match v with
      | .undef => params
      | v => paramsSet params k (jsToString v)
  | some f =>
    match f.kind, v with
    | .arr _, .arr xs =>
      (buildArrayPairs o k xs).foldl (fun ps p => paramsAppend ps p.1 p.2) params
    | _, _ => paramsSet params k (encodedScalar o v)

/-- buildQuery of src/core.ts: clean, then serialize each remaining entry. -/
def buildQuery (schema : Schema) (filters : Mapping) (o : BuildOptions) : Params :=
  (cleanObject filters ⟨o.dropEmpty, o.trimStrings⟩).foldl
    (fun ps kv => buildEntry schema o ps kv.1 kv.2) []

/-- Does a string end with the given character? -/
def endsWithCh (s : JSStr) (c : Char) : Bool := s.getLast? == some c

/-- buildUrl of src/core.ts: compose the base URL and the built query
string, handling existing question-mark or ampersand boundaries. -/
def buildUrl (baseUrl : JSStr) (schema : Schema) (filters : Mapping) (o : BuildOptions) :
    JSStr :=
  let qs := paramsToString (buildQuery schema filters o)
  if qs.isEmpty then baseUrl
  else
    let hasQ := baseUrl.contains '?'
    let sep : JSStr :=
      if hasQ then (if endsWithCh baseUrl '?' || endsWithCh baseUrl '&' then [] else ['&'])
      else ['?']
  baseUrl ++ sep ++ qs

/-- A key made only of characters that are meaningless to the query-string
syntax: no separator, no equals sign, no escape starter, no plus, and no
leading question mark to strip. -/
def plainKey (k : JSStr) : Bool :=
  k.all fun c => !(c = '&' || c = '=' || c = '%' || c = '+' || c = '?')

/-- Is a character serialized as a percent-escape run (neither verbatim-safe
nor the space that becomes a plus)? -/
def escCh (c : Char) : Bool := !isUrlSafeCh c && !(c = ' ')

/-- Does a scalar value inhabit the declared kind exactly, with a number in
the canonical exact-decimal form every host number value has?  This is the
per-field reading of the round-trip claim's conformance precondition. -/
def valueFits : Kind → JSValue → Bool
  | .str, .str _ => true
  | .num, .num x => x.canonical
  | .bool, .bool _ => true
  | _, _ => false

/-- The round-trip claim's precondition on a filter mapping: fully
populated, in schema declaration order, every field a fitting scalar. -/
def conformant : Schema → Mapping → Bool
  | [], [] => true
  | (k1, f) :: sh, (k2, v) :: mm =>
    (k1 == k2) && valueFits f.kind v && conformant sh mm
  | _, _ => false

/-!
Supporting lemmas.
-/

/-- jsTrim is right-dropping after left-dropping. -/
theorem jsTrim_eq (s : JSStr) :
    jsTrim s = List.rdropWhile isWsCh (s.dropWhile isWsCh) := rfl

/-- A left-trimmed list stays left-trimmed after right-trimming. -/
theorem dropWhile_rdropWhile (p : Char → Bool) (a : JSStr) (hda : a.dropWhile p = a) :
    (List.rdropWhile p a).dropWhile p = List.rdropWhile p a := by
  rcases hb : List.rdropWhile p a with _ | ⟨c, t⟩
  · rfl
  · have hpre : (c :: t) <+: a := hb ▸ List.rdropWhile_prefix p a
    obtain ⟨u, hu⟩ := hpre
    rw [List.cons_append] at hu
    rw [← hu, List.dropWhile_cons] at hda
    have hc : p c = false := by
      by_contra hcc
      have hcc' : p c = true := by revert hcc; cases p c <;> simp
      rw [if_pos hcc'] at hda
      have hlen := congrArg List.length hda
      have hle := (List.dropWhile_suffix (l := t ++ u) p).length_le
      simp only [List.length_cons] at hlen
      omega
    rw [List.dropWhile_cons, if_neg (by simp [hc])]

/-- Trimming is idempotent. -/
theorem jsTrim_idem (s : JSStr) : jsTrim (jsTrim s) = jsTrim s := by
  show List.rdropWhile isWsCh
      ((List.rdropWhile isWsCh (s.dropWhile isWsCh)).dropWhile isWsCh) =
    List.rdropWhile isWsCh (s.dropWhile isWsCh)
  rw [dropWhile_rdropWhile isWsCh _ (List.dropWhile_idempotent isWsCh s)]
  exact List.rdropWhile_idempotent isWsCh _

/-- A kept cleaned entry is a fixed point of the entry cleaner. -/
theorem cleanEntry_idem (opts : CleanOptions) (kv kv' : JSStr × JSValue)
    (h : cleanEntry opts kv = some kv') : cleanEntry opts kv' = some kv' := by
  obtain ⟨k, v⟩ := kv
  cases v with
  | str s =>
    cases ht : opts.trimStrings with
    | true =>
      simp only [cleanEntry, ht, if_true] at h
      split at h
      · exact absurd h (by simp)
      · next hcond =>
        cases h
        simp only [cleanEntry, ht, if_true, jsTrim_idem]
        rw [if_neg hcond]
    | false =>
      simp only [cleanEntry, ht, Bool.false_eq_true, if_false] at h
      split at h
      · exact absurd h (by simp)
      · next hcond =>
        cases h
        simp only [cleanEntry, ht, Bool.false_eq_true, if_false]
        rw [if_neg hcond]
  | undef =>
    simp only [cleanEntry] at h
    split at h
    · exact absurd h (by simp)
    · next hcond =>
      cases h
      simp only [cleanEntry]
      rw [if_neg hcond]
  | null =>
    simp only [cleanEntry] at h
    split at h
    · exact absurd h (by simp)
    · next hcond =>
      cases h
      simp only [cleanEntry]
      rw [if_neg hcond]
  | bool b =>
    simp only [cleanEntry] at h
    split at h
    · exact absurd h (by simp)
    · next hcond =>
      cases h
      simp only [cleanEntry]
      rw [if_neg hcond]
  | num x =>
    simp only [cleanEntry] at h
    split at h
    · exact absurd h (by simp)
    · next hcond =>
      cases h
      simp only [cleanEntry]
      rw [if_neg hcond]
  | date t =>
    simp only [cleanEntry] at h
    split at h
    · exact absurd h (by simp)
    · next hcond =>
      cases h
      simp only [cleanEntry]
      rw [if_neg hcond]
  | arr xs =>
    simp only [cleanEntry] at h
    split at h
    · exact absurd h (by simp)
    · next hcond =>
      cases h
      simp only [cleanEntry]
      rw [if_neg hcond]
  | obj fs =>
    simp only [cleanEntry] at h
    split at h
    · exact absurd h (by simp)
    · next hcond =>
      cases h
      simp only [cleanEntry]
      rw [if_neg hcond]

/-!
The claims.
-/

/-- C7: cleanObject is idempotent: cleaning an already-cleaned mapping with
the same options returns it unchanged, for every mapping and every
combination of the dropEmpty and trimStrings options. -/
theorem cleanObject_idempotent (m : Mapping) (opts : CleanOptions) :
    cleanObject (cleanObject m opts) opts = cleanObject m opts := by
  unfold cleanObject
  rw [List.filterMap_filterMap]
  refine List.filterMap_congr fun kv _ => ?_
  rcases h : cleanEntry opts kv with _ | kv'
  · rfl
  · exact cleanEntry_idem opts kv kv' h

/-- C2: for the number kind, a raw string that does not denote a finite
number is passed through unchanged by coercion (never an absent or
undefined value, and coercion itself never raises); the string then fails
the schema's number type check, deferring the error to validation. -/
theorem coerce_num_soft_fallback (s : JSStr) (h : strToNum s = none) :
    coerceValue Kind.num s = .str s ∧ typeMatches Kind.num (.str s) = false := by
  refine ⟨?_, rfl⟩
  simp only [coerceValue, h]

/-- Witness for C2 at the raw string of the repository's own test. -/
theorem coerce_num_soft_fallback_witness :
    coerceValue Kind.num "not-a-number".toList = .str "not-a-number".toList ∧
      typeMatches Kind.num (.str "not-a-number".toList) = false :=
  coerce_num_soft_fallback "not-a-number".toList (by rfl)

/-- C5: the json array format's deserialize returns an empty sequence, and
does not raise, whenever the first raw entry is not well-formed JSON. -/
theorem json_deserialize_malformed (k e : JSStr) (es : List JSStr)
    (h : jsonParse e = none) :
    jsonSerializer.deserializeArray k (e :: es) = .arr [] := by
  simp only [jsonSerializer, List.headD_cons, h]

/-- Witness for C5 at the malformed payload of the repository's own test. -/
theorem json_deserialize_malformed_witness :
    jsonSerializer.deserializeArray [] ["[invalid-json".toList] = .arr [] :=
  json_deserialize_malformed [] "[invalid-json".toList [] (by rfl)

/-- C6: the comma array format's deserialize splits the first raw entry on
commas, except that an empty first entry gives the empty sequence rather
than a one-element sequence holding the empty string. -/
theorem comma_deserialize_split (k : JSStr) (es : List JSStr) :
    (∀ e : JSStr, e ≠ [] →
      commaSerializer.deserializeArray k (e :: es) = .arr ((splitOnCh ',' e).map .str)) ∧
    commaSerializer.deserializeArray k ([] :: es) = .arr [] := by
  constructor
  · intro e he
    simp only [commaSerializer, List.isEmpty_iff, if_neg he]
  · rfl

/-- Witness for C6 at a two-item entry and the empty entry. -/
theorem comma_deserialize_split_witness :
    commaSerializer.deserializeArray [] ["a,b".toList] =
      .arr ((splitOnCh ',' "a,b".toList).map .str) :=
  (comma_deserialize_split [] []).1 "a,b".toList (by decide)

/-- C8: buildUrl returns the base URL unchanged when the built query string
is empty, and otherwise joins base and query with the empty separator when
the base contains a question mark and ends in a question mark or ampersand,
with an ampersand when it contains a question mark but ends in neither, and
with a question mark when it contains none. -/
theorem buildUrl_separator (baseUrl : JSStr) (schema : Schema) (filters : Mapping)
    (o : BuildOptions) :
    buildUrl baseUrl schema filters o =
      (if paramsToString (buildQuery schema filters o) = [] then baseUrl
       else
         baseUrl ++
           (if '?' ∈ baseUrl then
              (if baseUrl.getLast? = some '?' ∨ baseUrl.getLast? = some '&' then []
               else ['&'])
            else ['?']) ++
           paramsToString (buildQuery schema filters o)) := by
  unfold buildUrl
  simp only [List.isEmpty_iff, endsWithCh, beq_iff_eq, Bool.or_eq_true, decide_eq_true_eq,
    List.elem_iff]

/-- takeWhile over a satisfying run followed by a failing element. -/
theorem takeWhile_app_not (p : Char → Bool) (l1 : JSStr) (b : Char) (l2 : JSStr)
    (h1 : ∀ c ∈ l1, p c = true) (hb : p b = false) :
    (l1 ++ b :: l2).takeWhile p = l1 := by
  induction l1 with
  | nil => simp [List.takeWhile_cons, hb]
  | cons c t ih =>
    simp only [List.cons_append, List.takeWhile_cons, h1 c (by simp), if_true]
    rw [ih fun x hx => h1 x (by simp [hx])]

/-- dropWhile over a satisfying run followed by a failing element. -/
theorem dropWhile_app_not (p : Char → Bool) (l1 : JSStr) (b : Char) (l2 : JSStr)
    (h1 : ∀ c ∈ l1, p c = true) (hb : p b = false) :
    (l1 ++ b :: l2).dropWhile p = b :: l2 := by
  induction l1 with
  | nil => simp [List.dropWhile_cons, hb]
  | cons c t ih =>
    simp only [List.cons_append, List.dropWhile_cons, h1 c (by simp), if_true]
    exact ih fun x hx => h1 x (by simp [hx])

/-- Splitting a string that does not hold the separator gives it back whole. -/
theorem splitOnCh_no_sep (sep : Char) (s : JSStr) (h : ∀ c ∈ s, c ≠ sep) :
    splitOnCh sep s = [s] := by
  induction s with
  | nil => rfl
  | cons c t ih =>
    have ht := ih fun x hx => h x (by simp [hx])
    simp only [splitOnCh, ht]
    rw [if_neg (h c (by simp))]

/-- Tokenizing one character that is no percent and no plus. -/
theorem urlTokens_cons_plain (c : Char) (r : List Char) (hp : c ≠ '%') (hpl : c ≠ '+') :
    urlTokens (c :: r) = .ch c :: urlTokens r := by
  rw [urlTokens.eq_def]
  split <;> simp_all

/-- Tokenizing a string without percent or plus gives plain characters. -/
theorem urlTokens_plain (s : JSStr) (h : ∀ c ∈ s, c ≠ '%' ∧ c ≠ '+') :
    urlTokens s = s.map .ch := by
  induction s with
  | nil => rfl
  | cons c t ih =>
    rw [urlTokens_cons_plain c t (h c (by simp)).1 (h c (by simp)).2, List.map_cons,
      ih fun x hx => h x (by simp [hx])]

/-- Decoding plain character tokens with adequate fuel gives the characters. -/
theorem decodeToks_chs (cs : List Char) (fuel : Nat) (hf : cs.length ≤ fuel) :
    decodeToks fuel (cs.map .ch) = cs := by
  induction cs generalizing fuel with
  | nil => cases fuel <;> rfl
  | cons c t ih =>
    cases fuel with
    | zero => simp at hf
    | succ fuel =>
      simp only [List.map_cons, decodeToks]
      rw [ih fuel (by simpa using hf)]

/-- Urldecoding is the identity on strings without percent or plus. -/
theorem urlDecode_plain (s : JSStr) (h : ∀ c ∈ s, c ≠ '%' ∧ c ≠ '+') :
    urlDecode s = s := by
  unfold urlDecode
  rw [urlTokens_plain s h]
  exact decodeToks_chs s _ (by simp)

/-- Unpack the plain-key test. -/
theorem plainKey_spec (k : JSStr) (hk : plainKey k = true) :
    ∀ c ∈ k, c ≠ '&' ∧ c ≠ '=' ∧ c ≠ '%' ∧ c ≠ '+' ∧ c ≠ '?' := by
  intro c hc
  have := List.all_eq_true.mp hk c hc
  simp only [Bool.not_eq_true', Bool.or_eq_false_iff, decide_eq_false_iff_not] at this
  tauto

/-- stripQMark is the identity without a leading question mark. -/
theorem stripQMark_id (s : JSStr) (h : s.head? ≠ some '?') : stripQMark s = s := by
  cases s with
  | nil => rfl
  | cons c t =>
    simp only [stripQMark]
    rw [if_neg]
    intro hc
    exact h (by simp [hc])

/-- A single plain key with an empty value parses to one pair. -/
theorem urlParseParams_single (k : JSStr) (hk : plainKey k = true) :
    urlParseParams (k ++ ['=']) = [(k, [])] := by
  have hp := plainKey_spec k hk
  unfold urlParseParams
  rw [splitOnCh_no_sep '&' (k ++ ['=']) ?hamp]
  case hamp =>
    intro c hc
    rcases List.mem_append.mp hc with h1 | h1
    · exact (hp c h1).1
    · simp at h1
      simp [h1]
  have hne : (k ++ ['=']).isEmpty = false := by
    cases k <;> rfl
  simp only [List.filter_cons, hne, Bool.not_false, List.filter_nil, if_true, List.map_cons,
    List.map_nil]
  have hsplit : splitFirstEq (k ++ ['=']) = (k, []) := by
    unfold splitFirstEq
    rw [takeWhile_app_not _ k '=' [] (fun c hc => by simp [(hp c hc).2.1]) (by simp),
      dropWhile_app_not _ k '=' [] (fun c hc => by simp [(hp c hc).2.1]) (by simp)]
    rfl
  rw [hsplit]
  rw [show ((k, ([] : JSStr)).1) = k from rfl, show ((k, ([] : JSStr)).2) = [] from rfl]
  rw [urlDecode_plain k fun c hc => ⟨(hp c hc).2.2.1, (hp c hc).2.2.2.1⟩]
  rfl

/-- Successful validation rebuilds the mapping from the declared fields. -/
theorem zodParse_ok_eq (shape : Schema) (m res : Mapping) (h : zodParse shape m = .ok res) :
    res = zodRebuild shape m := by
  unfold zodParse at h
  split at h
  · cases h
    rfl
  · cases h

/-- A declared key bound in the validated input keeps its value in the
rebuilt mapping. -/
theorem mLookup_rebuild (shape : Schema) (m : Mapping) (k : JSStr) (v : JSValue)
    (hm : mLookup k m = some v) (hs : sLookup k shape ≠ none) :
    mLookup k (zodRebuild shape m) = some v := by
  unfold zodRebuild
  induction shape with
  | nil => exact absurd rfl hs
  | cons kf rest ih =>
    obtain ⟨k0, f0⟩ := kf
    by_cases hkk : k0 = k
    · subst hkk
      simp only [List.filterMap_cons, hm, Option.map_some]
      simp [mLookup]
    · have hs2 : sLookup k rest ≠ none := by
        simpa [sLookup, hkk] using hs
      rcases hl : mLookup k0 m with _ | w
      · simp only [List.filterMap_cons, hl, Option.map_none]
        exact ih hs2
      · simp only [List.filterMap_cons, hl, Option.map_some]
        simp only [mLookup, if_neg hkk]
        exact ih hs2

/-- C3: evaluation of the embedded pipeline at the failing input: with the
json array format, a payload that is well-formed JSON but not an array
("tags=5") makes parseQuery raise the host TypeError (the source calls
.map on the raw JSON.parse result), not the schema's ValidationError. -/
theorem parse_json_nonarray_typeerror :
    parseQuery [("tags".toList, ⟨Kind.arr Kind.str, true⟩)] "tags=5".toList
      { arrayFormat := some ArrayFormat.json } = .error QErr.typeError := rfl

/-- C9: for a number-kind field k, parsing an input holding the single
entry k with an empty raw value under coerceTypes yields the number zero
for k (the empty string coerces to the finite number 0), and since
coercion runs before cleaning this survives dropEmpty in either setting:
the cleaned interim mapping binds k to zero, and any successful parse
result binds k to zero. -/
theorem parse_empty_number_zero (schema : Schema) (k : JSStr) (f : SField) (d : Bool)
    (hk : plainKey k = true) (hf : sLookup k schema = some f) (hkind : f.kind = .num) :
    parseCleaned schema (k ++ ['=']) { coerceTypes := true, dropEmpty := d } =
        .ok [(k, .num JSNum.zero)] ∧
      ∀ m, parseQuery schema (k ++ ['=']) { coerceTypes := true, dropEmpty := d } = .ok m →
        mLookup k m = some (.num JSNum.zero) := by
  have hq : stripQMark (k ++ ['=']) = k ++ ['='] := by
    apply stripQMark_id
    cases k with
    | nil => simp
    | cons c t =>
      have := (plainKey_spec _ hk c (by simp)).2.2.2.2
      simp [this]
  have hcleaned : parseCleaned schema (k ++ ['=']) { coerceTypes := true, dropEmpty := d } =
      .ok [(k, .num JSNum.zero)] := by
    unfold parseCleaned
    rw [hq, urlParseParams_single k hk]
    have hgroup : groupPairs [(k, [])] = [(k, [[]])] := rfl
    rw [hgroup]
    unfold buildInterim interimEntry
    rw [hf]
    simp only [hkind]
    have hco : coerceValue Kind.num [] = .num JSNum.zero := rfl
    simp only [List.getLast?_singleton, hco]
    unfold buildInterim
    simp only [Except.map]
    simp [cleanObject, cleanEntry, isEmptyJS]
  refine ⟨hcleaned, fun m hm => ?_⟩
  unfold parseQuery at hm
  rw [hcleaned] at hm
  have := zodParse_ok_eq schema _ m hm
  subst this
  exact mLookup_rebuild schema _ k _ (by simp [mLookup]) (by simp [hf])

/-- Witness for C9 at the field age of the repository's test schema. -/
theorem parse_empty_number_zero_witness :
    parseCleaned [("age".toList, ⟨Kind.num, true⟩)] ("age".toList ++ ['='])
        { coerceTypes := true, dropEmpty := true } = .ok [("age".toList, .num JSNum.zero)] ∧
      mLookup "age".toList [("age".toList, JSValue.num JSNum.zero)] =
        some (.num JSNum.zero) :=
  ⟨(parse_empty_number_zero [("age".toList, ⟨Kind.num, true⟩)] "age".toList
      ⟨Kind.num, true⟩ true (by decide) (by rfl) rfl).1,
   (parse_empty_number_zero [("age".toList, ⟨Kind.num, true⟩)] "age".toList
      ⟨Kind.num, true⟩ true (by decide) (by rfl) rfl).2
     [("age".toList, JSValue.num JSNum.zero)] (by rfl)⟩

/-- With both cleaning flags off, every entry is kept unchanged. -/
theorem cleanEntry_default (kv : JSStr × JSValue) :
    cleanEntry ⟨false, false⟩ kv = some kv := by
  obtain ⟨k, v⟩ := kv
  cases v <;> simp [cleanEntry]

/-- With both cleaning flags off, cleanObject is the identity. -/
theorem cleanObject_default (m : Mapping) : cleanObject m ⟨false, false⟩ = m := by
  unfold cleanObject
  induction m with
  | nil => rfl
  | cons kv rest ih => rw [List.filterMap_cons, cleanEntry_default, ih]

/-- Set then read the same key. -/
theorem paramsGet_set_self (ps : Params) (k v : JSStr) :
    paramsGet k (paramsSet ps k v) = some v := by
  induction ps with
  | nil => simp [paramsSet, paramsGet]
  | cons p rest ih =>
    obtain ⟨k0, v0⟩ := p
    by_cases hk : k0 = k
    · subst hk
      simp [paramsSet, paramsGet]
    · simp only [paramsSet, if_neg hk, paramsGet]
      exact ih

/-- Reading a filtered-out key is unchanged by the filter. -/
theorem paramsGet_filter_ne (ps : Params) (k k2 : JSStr) (h : k2 ≠ k) :
    paramsGet k2 (ps.filter fun p => p.1 ≠ k) = paramsGet k2 ps := by
  induction ps with
  | nil => rfl
  | cons p rest ih =>
    obtain ⟨k0, v0⟩ := p
    by_cases hk : k0 = k
    · subst hk
      have : ¬(k0, v0).1 ≠ k0 := by simp
      rw [List.filter_cons_of_neg (by simp)]
      rw [ih]
      simp only [paramsGet]
      rw [if_neg (Ne.symm h)]
    · rw [List.filter_cons_of_pos (by simpa using hk)]
      simp only [paramsGet]
      by_cases hk2 : k0 = k2
      · rw [if_pos hk2, if_pos hk2]
      · rw [if_neg hk2, if_neg hk2]
        exact ih

/-- Setting one key does not change reads of another. -/
theorem paramsGet_set_other (ps : Params) (k v : JSStr) (k2 : JSStr) (h : k2 ≠ k) :
    paramsGet k2 (paramsSet ps k v) = paramsGet k2 ps := by
  induction ps with
  | nil =>
    simp only [paramsSet, paramsGet]
    rw [if_neg (Ne.symm h)]
  | cons p rest ih =>
    obtain ⟨k0, v0⟩ := p
    by_cases hk : k0 = k
    · subst hk
      simp only [paramsSet, if_pos rfl, paramsGet]
      rw [if_neg (Ne.symm h), if_neg (Ne.symm h)]
      exact paramsGet_filter_ne rest k0 k2 h
    · simp only [paramsSet, if_neg hk, paramsGet]
      by_cases hk2 : k0 = k2
      · rw [if_pos hk2, if_pos hk2]
      · rw [if_neg hk2, if_neg hk2]
        exact ih

/-- Appending one key does not change reads of another. -/
theorem paramsGet_append_other (ps : Params) (k0 v : JSStr) (k2 : JSStr) (h : k2 ≠ k0) :
    paramsGet k2 (paramsAppend ps k0 v) = paramsGet k2 ps := by
  induction ps with
  | nil =>
    simp only [paramsAppend, List.nil_append, paramsGet]
    rw [if_neg (Ne.symm h)]
  | cons p rest ih =>
    obtain ⟨k1, v1⟩ := p
    simp only [paramsAppend, List.cons_append, paramsGet] at ih ⊢
    by_cases hk1 : k1 = k2
    · rw [if_pos hk1, if_pos hk1]
    · rw [if_neg hk1, if_neg hk1]
      exact ih

/-- Every pair a strategy serializes carries the given key. -/
theorem serializeArray_keys (fmt : ArrayFormat) (k : JSStr) (items : List JSStr) :
    ∀ p ∈ (resolveArraySerializer fmt).serializeArray k items, p.1 = k := by
  cases fmt with
  | rep =>
    intro p hp
    simp only [resolveArraySerializer, repeatSerializer, List.mem_map] at hp
    obtain ⟨a, _, rfl⟩ := hp
    rfl
  | comma =>
    intro p hp
    simp only [resolveArraySerializer, commaSerializer, List.mem_singleton] at hp
    simp [hp]
  | json =>
    intro p hp
    simp only [resolveArraySerializer, jsonSerializer, List.mem_singleton] at hp
    simp [hp]

/-- Appending pairs that all carry one key does not change reads of
another key. -/
theorem foldl_append_get_other (prs : List (JSStr × JSStr)) (ps : Params) (k0 k2 : JSStr)
    (hk : ∀ p ∈ prs, p.1 = k0) (h : k2 ≠ k0) :
    paramsGet k2 (prs.foldl (fun ps p => paramsAppend ps p.1 p.2) ps) = paramsGet k2 ps := by
  induction prs generalizing ps with
  | nil => rfl
  | cons p rest ih =>
    rw [List.foldl_cons,
      ih (paramsAppend ps p.1 p.2) fun q hq => hk q (List.mem_cons_of_mem p hq)]
    rw [hk p (by simp)]
    exact paramsGet_append_other ps k0 p.2 k2 h

/-- A build step for one key does not change reads of another. -/
theorem buildEntry_get_other (schema : Schema) (o : BuildOptions) (ps : Params)
    (k0 : JSStr) (v : JSValue) (k2 : JSStr) (h : k2 ≠ k0) :
    paramsGet k2 (buildEntry schema o ps k0 v) = paramsGet k2 ps := by
  unfold buildEntry
  rcases hS : sLookup k0 schema with _ | f
  · cases hsu : o.stripUnknown with
    | true => rfl
    | false =>
      simp only [Bool.false_eq_true, if_false]
      cases v <;> first | rfl | exact paramsGet_set_other ps k0 _ k2 h
  · rcases f with ⟨kind, opt⟩
    cases kind <;> cases v <;>
      first
      | exact paramsGet_set_other ps k0 _ k2 h
      | exact foldl_append_get_other _ ps k0 k2
          (fun p hp => serializeArray_keys _ k0 _ p hp) h

/-- A build step for a declared non-array field writes its rendered value
under its key. -/
theorem buildEntry_get_self_scalar (schema : Schema) (o : BuildOptions) (ps : Params)
    (k : JSStr) (v : JSValue) (f : SField) (hS : sLookup k schema = some f)
    (hna : ∀ ek, f.kind ≠ .arr ek) :
    paramsGet k (buildEntry schema o ps k v) = some (encodedScalar o v) := by
  unfold buildEntry
  rw [hS]
  rcases f with ⟨kind, opt⟩
  cases kind <;> first
  | exact absurd rfl (hna _)
  | (cases v <;> exact paramsGet_set_self ps k _)

/-- Folding build steps whose keys differ from k does not change reads
of k. -/
theorem foldl_buildEntry_preserve (schema : Schema) (o : BuildOptions) (l : Mapping)
    (ps : Params) (k : JSStr) (h : ∀ kv ∈ l, kv.1 ≠ k) :
    paramsGet k (l.foldl (fun ps kv => buildEntry schema o ps kv.1 kv.2) ps) =
      paramsGet k ps := by
  induction l generalizing ps with
  | nil => rfl
  | cons kv rest ih =>
    rw [List.foldl_cons,
      ih (buildEntry schema o ps kv.1 kv.2) fun q hq => h q (List.mem_cons_of_mem kv hq)]
    exact buildEntry_get_other schema o ps kv.1 kv.2 k (Ne.symm (h kv (by simp)))

/-- Folding build steps over a mapping with distinct keys renders the value
bound to a declared non-array key under that key. -/
theorem foldl_buildEntry_found (schema : Schema) (o : BuildOptions) (l : Mapping)
    (ps : Params) (k : JSStr) (v : JSValue) (f : SField)
    (hnd : (l.map Prod.fst).Nodup) (hm : mLookup k l = some v)
    (hS : sLookup k schema = some f) (hna : ∀ ek, f.kind ≠ .arr ek) :
    paramsGet k (l.foldl (fun ps kv => buildEntry schema o ps kv.1 kv.2) ps) =
      some (encodedScalar o v) := by
  induction l generalizing ps with
  | nil => cases hm
  | cons kv rest ih =>
    obtain ⟨k0, v0⟩ := kv
    rw [List.map_cons, List.nodup_cons] at hnd
    by_cases hk : k0 = k
    · subst hk
      rw [show mLookup k0 ((k0, v0) :: rest) = some v0 by simp [mLookup]] at hm
      cases hm
      rw [List.foldl_cons]
      rw [foldl_buildEntry_preserve schema o rest _ k0
        fun q hq hc => hnd.1 (List.mem_map.mpr ⟨q, hq, hc⟩)]
      exact buildEntry_get_self_scalar schema o ps k0 v f hS hna
    · rw [show mLookup k ((k0, v0) :: rest) = mLookup k rest by simp [mLookup, hk]] at hm
      rw [List.foldl_cons]
      exact ih _ hnd.2 hm

/-- C10: a schema-declared non-array field present in the filters with
value undefined is not omitted by buildQuery without dropEmpty: it emits a
pair whose value is the literal string undefined, and analogously the
literal string null for a null value. -/
theorem buildQuery_undefined_literal (schema : Schema) (filters : Mapping) (k : JSStr)
    (f : SField) (hnd : (filters.map Prod.fst).Nodup) (hS : sLookup k schema = some f)
    (hna : ∀ ek, f.kind ≠ .arr ek) :
    (mLookup k filters = some .undef →
      paramsGet k (buildQuery schema filters {}) = some "undefined".toList) ∧
    (mLookup k filters = some .null →
      paramsGet k (buildQuery schema filters {}) = some "null".toList) := by
  have main : ∀ v, mLookup k filters = some v →
      paramsGet k (buildQuery schema filters {}) = some (encodedScalar {} v) := by
    intro v hv
    unfold buildQuery
    rw [show cleanObject filters ⟨({} : BuildOptions).dropEmpty,
      ({} : BuildOptions).trimStrings⟩ = filters from cleanObject_default filters]
    exact foldl_buildEntry_found schema {} filters [] k v f hnd hv hS hna
  exact ⟨fun h => main .undef h, fun h => main .null h⟩

/-- Witness for C10 at a one-field schema. -/
theorem buildQuery_undefined_literal_witness :
    paramsGet "a".toList
        (buildQuery [("a".toList, ⟨Kind.str, true⟩)] [("a".toList, .undef)] {}) =
      some "undefined".toList ∧
    paramsGet "a".toList
        (buildQuery [("a".toList, ⟨Kind.str, true⟩)] [("a".toList, .null)] {}) =
      some "null".toList :=
  ⟨(buildQuery_undefined_literal [("a".toList, ⟨Kind.str, true⟩)] [("a".toList, .undef)]
      "a".toList ⟨Kind.str, true⟩ (by decide) (by rfl) (by intro ek; simp)).1 (by rfl),
   (buildQuery_undefined_literal [("a".toList, ⟨Kind.str, true⟩)] [("a".toList, .null)]
      "a".toList ⟨Kind.str, true⟩ (by decide) (by rfl) (by intro ek; simp)).2 (by rfl)⟩

/-- Every kept interim entry carries the processed key. -/
theorem interimEntry_key (schema : Schema) (o : ParseOptions) (k : JSStr)
    (entries : List JSStr) (kv : JSStr × JSValue)
    (h : interimEntry schema o k entries = .ok (some kv)) : kv.1 = k := by
  unfold interimEntry at h
  rcases hS : sLookup k schema with _ | f
  · rw [hS] at h
    cases hsu : o.stripUnknown with
    | true =>
      rw [hsu] at h
      simp at h
    | false =>
      rw [hsu] at h
      simp only [Bool.false_eq_true, if_false] at h
      cases h
      rfl
  · rw [hS] at h
    dsimp only at h
    rcases hk2 : f.kind with _ | _ | _ | _ | ek <;> rw [hk2] at h <;> dsimp only at h
    case arr =>
      split at h
      · cases h
        rfl
      · cases h
    all_goals
      rcases hl : entries.getLast? with _ | raw <;> rw [hl] at h <;> cases h <;> rfl

/-- Lookup of an unknown key in the interim mapping: dropped entirely under
stripUnknown, otherwise exactly the grouped raw entries in their carried
shape. -/
theorem buildInterim_unknown_lookup (schema : Schema) (o : ParseOptions) (k : JSStr)
    (hS : sLookup k schema = none) (groups : List (JSStr × List JSStr)) :
    ∀ im, buildInterim schema o groups = .ok im →
      mLookup k im = if o.stripUnknown then none else (gLookup k groups).map entriesVal := by
  induction groups with
  | nil =>
    intro im him
    cases him
    cases o.stripUnknown <;> rfl
  | cons g rest ih =>
    obtain ⟨k0, es⟩ := g
    intro im him
    unfold buildInterim at him
    by_cases hk : k0 = k
    · subst hk
      rw [show interimEntry schema o k0 es =
          (if o.stripUnknown then .ok none else .ok (some (k0, entriesVal es))) by
        unfold interimEntry
        rw [hS]] at him
      cases hsu : o.stripUnknown with
      | true =>
        rw [hsu, if_pos rfl] at him
        dsimp only at him
        rw [ih im him]
        simp [hsu]
      | false =>
        rw [hsu, if_neg (by simp)] at him
        dsimp only at him
        rcases hrest : buildInterim schema o rest with e | m0 <;> rw [hrest] at him
        · simp [Except.map] at him
        · simp only [Except.map] at him
          cases him
          simp only [hsu, Bool.false_eq_true, if_false, gLookup, if_pos rfl, Option.map_some]
          simp [mLookup]
    · rcases hie : interimEntry schema o k0 es with e | kvo <;> rw [hie] at him <;>
        try dsimp only at him
      · cases him
      · rcases kvo with _ | kv
        · try dsimp only at him
          rw [ih im him]
          cases o.stripUnknown
          · simp only [Bool.false_eq_true, if_false, gLookup, if_neg hk]
          · simp
        · try dsimp only at him
          rcases hrest : buildInterim schema o rest with e | m0 <;> rw [hrest] at him
          · simp [Except.map] at him
          · simp only [Except.map] at him
            cases him
            have hkey := interimEntry_key schema o k0 es kv hie
            simp only [mLookup]
            rw [if_neg (hkey ▸ hk)]
            rw [ih m0 hrest]
            cases o.stripUnknown
            · simp only [Bool.false_eq_true, if_false, gLookup, if_neg hk]
            · simp

/-- An unknown key is absent from the validator's rebuilt mapping. -/
theorem mLookup_rebuild_none (shape : Schema) (m : Mapping) (k : JSStr)
    (hS : sLookup k shape = none) : mLookup k (zodRebuild shape m) = none := by
  unfold zodRebuild
  induction shape with
  | nil => rfl
  | cons kf rest ih =>
    obtain ⟨k0, f0⟩ := kf
    have hk : k0 ≠ k := by
      intro hc
      rw [show sLookup k ((k0, f0) :: rest) = some f0 by simp [sLookup, hc]] at hS
      cases hS
    have hS2 : sLookup k rest = none := by
      rw [show sLookup k ((k0, f0) :: rest) = sLookup k rest by simp [sLookup, hk]] at hS
      exact hS
    rcases hl : mLookup k0 m with _ | w
    · simp only [List.filterMap_cons, hl, Option.map_none]
      exact ih hS2
    · simp only [List.filterMap_cons, hl, Option.map_some]
      simp only [mLookup, if_neg hk]
      exact ih hS2

/-- Counterexample to C4 as stated, at the repository's own unknown-keys
test: with stripUnknown false, the once-occurring unknown key is not
carried into parseQuery's result; the parse succeeds and the result lacks
the key. -/
theorem parse_unknown_key_counterexample :
    parseQuery [("name".toList, ⟨Kind.str, true⟩)] "name=John&unknown=value".toList {} =
        .ok [("name".toList, .str "John".toList)] ∧
      mLookup "unknown".toList [("name".toList, JSValue.str "John".toList)] = none :=
  ⟨rfl, rfl⟩

/-- C4 amended: an unknown query key is carried unchanged into the interim
mapping when stripUnknown is false (single string for one occurrence,
ordered sequence for more) and dropped from it when stripUnknown is true;
in both cases the key is absent from parseQuery's final result, because
the schema validation strips unknown keys. -/
theorem parse_unknown_key_amended (schema : Schema) (input : JSStr) (o : ParseOptions)
    (k : JSStr) (hS : sLookup k schema = none) :
    (∀ im, buildInterim schema o (groupPairs (urlParseParams (stripQMark input))) = .ok im →
      mLookup k im =
        if o.stripUnknown then none
        else (gLookup k (groupPairs (urlParseParams (stripQMark input)))).map entriesVal) ∧
    (∀ m, parseQuery schema input o = .ok m → mLookup k m = none) := by
  constructor
  · exact buildInterim_unknown_lookup schema o k hS _
  · intro m hm
    unfold parseQuery at hm
    rcases hc : parseCleaned schema input o with e | cleaned
    · rw [hc] at hm
      cases hm
    · rw [hc] at hm
      have := zodParse_ok_eq schema cleaned m hm
      subst this
      exact mLookup_rebuild_none schema cleaned k hS

/-- Witness for the amended C4 at the repository's own unknown-keys test
input, with stripUnknown left false. -/
theorem parse_unknown_key_amended_witness :
    mLookup "unknown".toList
        [("name".toList, JSValue.str "John".toList),
         ("unknown".toList, JSValue.str "value".toList)] =
      (if ({} : ParseOptions).stripUnknown then none
       else (gLookup "unknown".toList
          (groupPairs (urlParseParams
            (stripQMark "name=John&unknown=value".toList)))).map entriesVal) ∧
    mLookup "unknown".toList [("name".toList, JSValue.str "John".toList)] = none :=
  ⟨(parse_unknown_key_amended [("name".toList, ⟨Kind.str, true⟩)]
      "name=John&unknown=value".toList {} "unknown".toList (by rfl)).1
      [("name".toList, JSValue.str "John".toList),
       ("unknown".toList, JSValue.str "value".toList)] (by rfl),
   (parse_unknown_key_amended [("name".toList, ⟨Kind.str, true⟩)]
      "name=John&unknown=value".toList {} "unknown".toList (by rfl)).2
      [("name".toList, JSValue.str "John".toList)] (by rfl)⟩

/-!
Lemmas for the number printing/parsing round trip.
-/

/-- Facts about digit characters. -/
theorem digitCh_facts (d : Nat) (h : d < 10) :
    digitVal (digitCh d) = d ∧ isDigitCh (digitCh d) = true ∧ isWsCh (digitCh d) = false ∧
      digitCh d ≠ '.' ∧ digitCh d ≠ 'e' ∧ digitCh d ≠ 'E' ∧ digitCh d ≠ '+' ∧
      digitCh d ≠ '-' ∧ digitCh d ≠ '%' := by
  interval_cases d <;> decide

/-- A nonzero digit does not print as the zero character. -/
theorem digitCh_ne_zeroCh (d : Nat) (h1 : d < 10) (h2 : d ≠ 0) : digitCh d ≠ '0' := by
  interval_cases d <;> first | exact absurd rfl h2 | decide

/-- Reading back the digits of an appended digit. -/
theorem digitsToNat_append (xs : List Nat) (d : Nat) :
    digitsToNat (xs ++ [d]) = 10 * digitsToNat xs + d := by
  unfold digitsToNat
  rw [List.foldl_append]
  simp [List.foldl]
  omega

/-- The fuel-driven digit expansion reads back with adequate fuel. -/
theorem digitsToNat_natDigitsAux (fuel n : Nat) (h : n ≤ fuel) :
    digitsToNat (natDigitsAux fuel n) = n := by
  induction fuel generalizing n with
  | zero =>
    have : n = 0 := by omega
    subst this
    rfl
  | succ fuel ih =>
    cases n with
    | zero => rfl
    | succ m =>
      have hlt : (m + 1) / 10 < m + 1 := Nat.div_lt_self (Nat.succ_pos m) (by norm_num)
      rw [natDigitsAux, digitsToNat_append, ih ((m + 1) / 10) (by omega)]
      omega

/-- The digit expansion reads back. -/
theorem digitsToNat_natDigits (n : Nat) : digitsToNat (natDigits n) = n :=
  digitsToNat_natDigitsAux n n le_rfl

/-- Digits of the expansion are below ten. -/
theorem natDigitsAux_lt10 (fuel n : Nat) : ∀ d ∈ natDigitsAux fuel n, d < 10 := by
  induction fuel generalizing n with
  | zero => simp [natDigitsAux]
  | succ fuel ih =>
    cases n with
    | zero => simp [natDigitsAux]
    | succ m =>
      intro d hd
      rw [natDigitsAux] at hd
      rcases List.mem_append.mp hd with h1 | h1
      · exact ih _ d h1
      · simp at h1
        omega

/-- Digits of the expansion are below ten (packaged form). -/
theorem natDigits_lt10 (n : Nat) : ∀ d ∈ natDigits n, d < 10 :=
  natDigitsAux_lt10 n n

/-- A positive number has a nonempty digit expansion. -/
theorem natDigits_ne_nil (n : Nat) (h : 0 < n) : natDigits n ≠ [] := by
  unfold natDigits
  cases n with
  | zero => omega
  | succ m =>
    rw [natDigitsAux]
    simp

/-- Mapping digit values over digit characters is the identity. -/
theorem map_digitVal_digitChars (ds : List Nat) (h : ∀ d ∈ ds, d < 10) :
    (digitChars ds).map digitVal = ds := by
  unfold digitChars
  rw [List.map_map]
  conv_rhs => rw [← List.map_id ds]
  exact List.map_congr_left fun d hd => (digitCh_facts d (h d hd)).1

/-- Digit characters are digits. -/
theorem digitChars_all_digit (ds : List Nat) (h : ∀ d ∈ ds, d < 10) :
    ∀ c ∈ digitChars ds, isDigitCh c = true := by
  intro c hc
  obtain ⟨d, hd, rfl⟩ := List.mem_map.mp hc
  exact (digitCh_facts d (h d hd)).2.1

/-- Exponent sign and digits read back, for a nonzero exponent. -/
theorem parseExpTail_expChars (e : Int) (h : e ≠ 0) :
    parseExpTail (expChars e) = some e := by
  have habs : 0 < e.natAbs := by omega
  have hne2 : natChars e.natAbs ≠ [] := by
    show digitChars (natDigits e.natAbs) ≠ []
    unfold digitChars
    simpa using natDigits_ne_nil e.natAbs habs
  have hdig : (natChars e.natAbs).all isDigitCh = true :=
    List.all_eq_true.mpr (digitChars_all_digit (natDigits e.natAbs) (natDigits_lt10 _))
  have hval : digitsToNat ((natChars e.natAbs).map digitVal) = e.natAbs := by
    show digitsToNat ((digitChars (natDigits e.natAbs)).map digitVal) = _
    rw [map_digitVal_digitChars (natDigits e.natAbs) (natDigits_lt10 _),
      digitsToNat_natDigits]
  have hie : (natChars e.natAbs).isEmpty = false := by
    rcases hcs : natChars e.natAbs with _ | ⟨c, t⟩
    · exact absurd hcs hne2
    · rfl
  have hexp : parseExpDigits (decide (e < 0)) (natChars e.natAbs) = some e := by
    unfold parseExpDigits
    rw [hie, hdig]
    simp only [Bool.false_eq_true, if_false, if_true, hval]
    congr 1
    by_cases hpos : e < 0
    · rw [show decide (e < 0) = true by simp [hpos], if_pos rfl]
      omega
    · rw [show decide (e < 0) = false by simp [hpos], if_neg (by simp)]
      omega
  unfold expChars
  by_cases hpos : e < 0
  · rw [if_pos hpos, List.singleton_append,
      show parseExpTail ('-' :: natChars e.natAbs) =
        parseExpDigits true (natChars e.natAbs) from rfl,
      show true = decide (e < 0) by simp [hpos]]
    exact hexp
  · rw [if_neg hpos, List.singleton_append,
      show parseExpTail ('+' :: natChars e.natAbs) =
        parseExpDigits false (natChars e.natAbs) from rfl,
      show false = decide (e < 0) by simp [hpos]]
    exact hexp

/-- dropWhile jumps over a replicate of satisfying elements. -/
theorem dropWhile_replicate_append (p : Nat → Bool) (a : Nat) (x : Nat) (l : List Nat)
    (hx : p x = true) :
    (List.replicate a x ++ l).dropWhile p = l.dropWhile p := by
  induction a with
  | zero => rfl
  | succ a ih =>
    rw [List.replicate_succ, List.cons_append, List.dropWhile_cons, if_pos hx]
    exact ih

/-- dropWhile stops at a failing head. -/
theorem dropWhile_cons_neg {p : Nat → Bool} {x : Nat} {l : List Nat} (hx : p x = false) :
    (x :: l).dropWhile p = x :: l := by
  rw [List.dropWhile_cons, if_neg (by simp [hx])]

/-- Normalizing zeros around a digit block whose ends are nonzero. -/
theorem make_general (neg : Bool) (a b : Nat) (ds : List Nat) (e : Int)
    (hne : ds ≠ []) (hh : ds.head hne ≠ 0) (hl : ds.getLast hne ≠ 0) :
    JSNum.make neg (List.replicate a 0 ++ ds ++ List.replicate b 0) e =
      ⟨neg, ds, e + b⟩ := by
  have hlead : stripLead (List.replicate a 0 ++ ds ++ List.replicate b 0) =
      ds ++ List.replicate b 0 := by
    unfold stripLead
    rw [List.append_assoc, dropWhile_replicate_append (· == 0) a 0 _ (by simp)]
    rcases ds with _ | ⟨d, t⟩
    · exact absurd rfl hne
    · rw [List.cons_append]
      exact dropWhile_cons_neg (by simpa using hh)
  have hcore : stripCore (List.replicate a 0 ++ ds ++ List.replicate b 0) = ds.reverse := by
    unfold stripCore
    rw [hlead, List.reverse_append, List.reverse_replicate,
      dropWhile_replicate_append (· == 0) b 0 _ (by simp)]
    have hrne : ds.reverse ≠ [] := by simpa using hne
    rcases hr : ds.reverse with _ | ⟨d, t⟩
    · exact absurd hr hrne
    · have h1 : ds.getLast? = some d := by
        rw [← List.head?_reverse, hr]
        rfl
      have h2 : ds.getLast? = some (ds.getLast hne) := List.getLast?_eq_getLast ds hne
      have hd : ds.getLast hne = d := (Option.some.inj (h1.symm.trans h2)).symm
      exact dropWhile_cons_neg (by rw [← hd]; simpa using hl)
  unfold JSNum.make
  rw [hcore, hlead]
  have hrne : ds.reverse ≠ [] := by simpa using hne
  rw [if_neg (by simpa using hrne)]
  simp only [List.reverse_reverse]
  congr 1
  have h1 : (ds ++ List.replicate b 0).length = ds.length + b := by simp
  have h2 : ds.reverse.length = ds.length := by simp
  rw [h1, h2]
  omega

/-- Normalizing with no surrounding zeros. -/
theorem make_block (neg : Bool) (ds : List Nat) (e : Int) (hne : ds ≠ [])
    (hh : ds.head hne ≠ 0) (hl : ds.getLast hne ≠ 0) :
    JSNum.make neg ds e = ⟨neg, ds, e⟩ := by
  have := make_general neg 0 0 ds e hne hh hl
  simp only [List.replicate_zero, List.nil_append, List.append_nil] at this
  rw [this]
  simp

/-- Normalizing with leading zeros only. -/
theorem make_lead (neg : Bool) (a : Nat) (ds : List Nat) (e : Int) (hne : ds ≠ [])
    (hh : ds.head hne ≠ 0) (hl : ds.getLast hne ≠ 0) :
    JSNum.make neg (List.replicate a 0 ++ ds) e = ⟨neg, ds, e⟩ := by
  have := make_general neg a 0 ds e hne hh hl
  simp only [List.replicate_zero, List.append_nil] at this
  rw [this]
  simp

/-- Normalizing with trailing zeros only. -/
theorem make_trail (neg : Bool) (ds : List Nat) (b : Nat) (e : Int) (hne : ds ≠ [])
    (hh : ds.head hne ≠ 0) (hl : ds.getLast hne ≠ 0) :
    JSNum.make neg (ds ++ List.replicate b 0) e = ⟨neg, ds, e + b⟩ := by
  have := make_general neg 0 b ds e hne hh hl
  simpa only [List.replicate_zero, List.nil_append] using this

/-- The canonical digit block of a canonical nonzero value. -/
theorem canonical_digits (x : JSNum) (hc : x.canonical = true) (hne : x.digits ≠ []) :
    (∀ d ∈ x.digits, d < 10) ∧ x.digits.head hne ≠ 0 ∧ x.digits.getLast hne ≠ 0 := by
  unfold JSNum.canonical at hc
  simp only [Bool.and_eq_true, List.all_eq_true, decide_eq_true_eq, bne_iff_ne] at hc
  obtain ⟨⟨⟨h10, hh⟩, hl⟩, _⟩ := hc
  refine ⟨h10, ?_, ?_⟩
  · intro hcon
    apply hh
    rw [List.head?_eq_head hne, hcon]
  · intro hcon
    apply hl
    rw [List.getLast?_eq_getLast _ hne, hcon]

/-- Normalizing an already-canonical value is the identity. -/
theorem make_canonical (x : JSNum) (hc : x.canonical = true) (hne : x.digits ≠ []) :
    JSNum.make x.neg x.digits x.exp = x := by
  obtain ⟨h10, hh, hl⟩ := canonical_digits x hc hne
  have := make_general x.neg 0 0 x.digits x.exp hne hh hl
  simp only [List.replicate_zero, List.nil_append, List.append_nil] at this
  rw [this]
  simp

/-- dropWhile is the identity when no element satisfies. -/
theorem dropWhile_eq_self_of_none (p : Char → Bool) (l : JSStr)
    (h : ∀ c ∈ l, p c = false) : l.dropWhile p = l := by
  cases l with
  | nil => rfl
  | cons c t => rw [List.dropWhile_cons, if_neg (by simp [h c (by simp)])]

/-- Trimming is the identity on whitespace-free strings. -/
theorem jsTrim_nows (s : JSStr) (h : ∀ c ∈ s, isWsCh c = false) : jsTrim s = s := by
  unfold jsTrim
  rw [dropWhile_eq_self_of_none isWsCh s h,
    dropWhile_eq_self_of_none isWsCh s.reverse (fun c hc => h c (List.mem_reverse.mp hc)),
    List.reverse_reverse]

/-- takeWhile keeps an all-satisfying list whole. -/
theorem takeWhile_all (p : Char → Bool) (l : JSStr) (h : ∀ c ∈ l, p c = true) :
    l.takeWhile p = l := by
  induction l with
  | nil => rfl
  | cons c t ih =>
    rw [List.takeWhile_cons, if_pos (h c (by simp)), ih fun x hx => h x (by simp [hx])]

/-- dropWhile empties an all-satisfying list. -/
theorem dropWhile_all (p : Char → Bool) (l : JSStr) (h : ∀ c ∈ l, p c = true) :
    l.dropWhile p = [] := by
  induction l with
  | nil => rfl
  | cons c t ih =>
    rw [List.dropWhile_cons, if_pos (h c (by simp)), ih fun x hx => h x (by simp [hx])]

/-- A string with a digit head is not the Infinity literal. -/
theorem head_digit_ne_infinity (c : Char) (t : JSStr) (h : isDigitCh c = true) :
    c :: t ≠ infinityChars := by
  intro heq
  rw [show infinityChars = 'I' :: ['n', 'f', 'i', 'n', 'i', 't', 'y'] from rfl] at heq
  have hc : c = 'I' := (List.cons.injEq _ _ _ _ ▸ heq).1
  rw [hc] at h
  exact absurd h (by decide)

/-- Digit characters of an in-range digit list, as a cons. -/
theorem digitChars_cons (d : Nat) (t : List Nat) :
    digitChars (d :: t) = digitCh d :: digitChars t := rfl

/-- Reading back a printed plain-integer body. -/
theorem parseDec_digits (neg : Bool) (ds : List Nat) (m : Nat)
    (h10 : ∀ d ∈ ds, d < 10) (hne : ds ≠ []) (hh : ds.head hne ≠ 0)
    (hl : ds.getLast hne ≠ 0) :
    parseDecAfterSign neg (digitChars ds ++ List.replicate m '0') =
      some ⟨neg, ds, (m : Int)⟩ := by
  have hbd : ∀ c ∈ digitChars ds ++ List.replicate m '0', isDigitCh c = true := by
    intro c hc
    rcases List.mem_append.mp hc with h1 | h1
    · exact digitChars_all_digit ds h10 c h1
    · rw [List.eq_of_mem_replicate h1]
      decide
  have hinf : digitChars ds ++ List.replicate m '0' ≠ infinityChars := by
    rcases ds with _ | ⟨d, t⟩
    · exact absurd rfl hne
    · rw [digitChars_cons, List.cons_append]
      refine head_digit_ne_infinity _ _ (hbd (digitCh d) ?_)
      rw [digitChars_cons]
      exact List.mem_append_left _ (List.mem_cons_self _ _)
  unfold parseDecAfterSign
  rw [if_neg hinf, takeWhile_all _ _ hbd, dropWhile_all _ _ hbd]
  rw [show parseDecBody neg (digitChars ds ++ List.replicate m '0') [] =
    (if (digitChars ds ++ List.replicate m '0').isEmpty then none
     else some (JSNum.make neg ((digitChars ds ++ List.replicate m '0').map digitVal) 0))
    from rfl]
  have hbne : (digitChars ds ++ List.replicate m '0').isEmpty = false := by
    rcases ds with _ | ⟨d, t⟩
    · exact absurd rfl hne
    · rfl
  rw [hbne]
  simp only [Bool.false_eq_true, if_false]
  have hmap : (digitChars ds ++ List.replicate m '0').map digitVal =
      ds ++ List.replicate m 0 := by
    rw [List.map_append, map_digitVal_digitChars ds h10, List.map_replicate]
    rfl
  rw [hmap, make_trail neg ds m 0 hne hh hl]
  norm_num

/-- Reading back a printed body with the point inside the digits. -/
theorem parseDec_point (neg : Bool) (ds : List Nat) (t : Nat)
    (h10 : ∀ d ∈ ds, d < 10) (hne : ds ≠ []) (hh : ds.head hne ≠ 0)
    (hl : ds.getLast hne ≠ 0) (ht0 : 0 < t) (htk : t < ds.length) :
    parseDecAfterSign neg (digitChars (ds.take t) ++ '.' :: digitChars (ds.drop t)) =
      some ⟨neg, ds, -(((ds.drop t).length : Nat) : Int)⟩ := by
  have h10t : ∀ d ∈ ds.take t, d < 10 := fun d hd => h10 d (List.mem_of_mem_take hd)
  have h10d : ∀ d ∈ ds.drop t, d < 10 := fun d hd => h10 d (List.mem_of_mem_drop hd)
  have hipne : ds.take t ≠ [] := by
    intro hc
    rcases List.take_eq_nil_iff.mp hc with h1 | h1
    · omega
    · exact hne h1
  have hinf : digitChars (ds.take t) ++ '.' :: digitChars (ds.drop t) ≠ infinityChars := by
    rcases hts : ds.take t with _ | ⟨d, t2⟩
    · exact absurd hts hipne
    · rw [digitChars_cons, List.cons_append]
      refine head_digit_ne_infinity _ _ ?_
      refine digitChars_all_digit _ h10t _ ?_
      rw [hts]
      exact List.mem_cons_self _ _
  unfold parseDecAfterSign
  rw [if_neg hinf,
    takeWhile_app_not isDigitCh _ '.' _ (digitChars_all_digit _ h10t) (by decide),
    dropWhile_app_not isDigitCh _ '.' _ (digitChars_all_digit _ h10t) (by decide)]
  rw [show parseDecBody neg (digitChars (ds.take t)) ('.' :: digitChars (ds.drop t)) =
    parseDecFrac neg (digitChars (ds.take t)) ((digitChars (ds.drop t)).takeWhile isDigitCh)
      ((digitChars (ds.drop t)).dropWhile isDigitCh) from rfl]
  rw [takeWhile_all _ _ (digitChars_all_digit _ h10d),
    dropWhile_all _ _ (digitChars_all_digit _ h10d)]
  rw [show parseDecFrac neg (digitChars (ds.take t)) (digitChars (ds.drop t)) [] =
    (if (digitChars (ds.take t)).isEmpty && (digitChars (ds.drop t)).isEmpty then none
     else some (JSNum.make neg
       ((digitChars (ds.take t) ++ digitChars (ds.drop t)).map digitVal)
       (-((digitChars (ds.drop t)).length : Int)))) from rfl]
  have hie : (digitChars (ds.take t)).isEmpty = false := by
    rcases hts : ds.take t with _ | ⟨d, t2⟩
    · exact absurd hts hipne
    · rfl
  rw [hie]
  simp only [Bool.false_and, Bool.false_eq_true, if_false]
  have hmap : (digitChars (ds.take t) ++ digitChars (ds.drop t)).map digitVal = ds := by
    have hfuse : digitChars (ds.take t) ++ digitChars (ds.drop t) = digitChars ds := by
      unfold digitChars
      rw [← List.map_append, List.take_append_drop]
    rw [hfuse]
    exact map_digitVal_digitChars ds h10
  rw [hmap, make_block neg ds _ hne hh hl]
  have hlen : (digitChars (ds.drop t)).length = (ds.drop t).length := by
    unfold digitChars
    simp
  rw [hlen]

/-- Reading back a printed body with leading zeros after the point. -/
theorem parseDec_leadzeros (neg : Bool) (ds : List Nat) (z : Nat)
    (h10 : ∀ d ∈ ds, d < 10) (hne : ds ≠ []) (hh : ds.head hne ≠ 0)
    (hl : ds.getLast hne ≠ 0) :
    parseDecAfterSign neg ('0' :: '.' :: (List.replicate z '0' ++ digitChars ds)) =
      some ⟨neg, ds, -(((z + ds.length : Nat) : Int))⟩ := by
  have htail : ∀ c ∈ List.replicate z '0' ++ digitChars ds, isDigitCh c = true := by
    intro c hc
    rcases List.mem_append.mp hc with h1 | h1
    · rw [List.eq_of_mem_replicate h1]
      decide
    · exact digitChars_all_digit ds h10 c h1
  have hinf : ('0' :: '.' :: (List.replicate z '0' ++ digitChars ds)) ≠ infinityChars := by
    exact head_digit_ne_infinity _ _ (by decide)
  unfold parseDecAfterSign
  rw [if_neg hinf]
  rw [show ('0' :: '.' :: (List.replicate z '0' ++ digitChars ds)) =
    ['0'] ++ '.' :: (List.replicate z '0' ++ digitChars ds) from rfl]
  rw [takeWhile_app_not isDigitCh _ '.' _
      (by intro c hc; simp at hc; subst hc; decide) (by decide),
    dropWhile_app_not isDigitCh _ '.' _
      (by intro c hc; simp at hc; subst hc; decide) (by decide)]
  rw [show parseDecBody neg ['0'] ('.' :: (List.replicate z '0' ++ digitChars ds)) =
    parseDecFrac neg ['0']
      ((List.replicate z '0' ++ digitChars ds).takeWhile isDigitCh)
      ((List.replicate z '0' ++ digitChars ds).dropWhile isDigitCh) from rfl]
  rw [takeWhile_all _ _ htail, dropWhile_all _ _ htail]
  rw [show parseDecFrac neg ['0'] (List.replicate z '0' ++ digitChars ds) [] =
    (if (['0'] : JSStr).isEmpty && (List.replicate z '0' ++ digitChars ds).isEmpty then none
     else some (JSNum.make neg
       ((['0'] ++ (List.replicate z '0' ++ digitChars ds)).map digitVal)
       (-((List.replicate z '0' ++ digitChars ds).length : Int)))) from rfl]
  simp only [List.isEmpty_cons, Bool.false_and, Bool.false_eq_true, if_false]
  have hmap : ((['0'] ++ (List.replicate z '0' ++ digitChars ds)).map digitVal) =
      List.replicate (z + 1) 0 ++ ds := by
    rw [List.map_append, List.map_append, map_digitVal_digitChars ds h10,
      List.map_replicate]
    rw [show List.map digitVal ['0'] = [0] from rfl, show digitVal '0' = 0 from rfl,
      List.replicate_succ]
    rfl
  rw [hmap, make_lead neg (z + 1) ds _ hne hh hl]
  have hlen : (List.replicate z '0' ++ digitChars ds).length = z + ds.length := by
    unfold digitChars
    simp
  rw [hlen]

/-- Reading back a printed one-digit exponential body. -/
theorem parseDec_exp_one (neg : Bool) (d : Nat) (e : Int)
    (h10 : d < 10) (hd0 : d ≠ 0) (he : e ≠ 0) :
    parseDecAfterSign neg (digitCh d :: 'e' :: expChars e) = some ⟨neg, [d], e⟩ := by
  have hinf : (digitCh d :: 'e' :: expChars e) ≠ infinityChars :=
    head_digit_ne_infinity _ _ (digitCh_facts d h10).2.1
  unfold parseDecAfterSign
  rw [if_neg hinf]
  rw [show (digitCh d :: 'e' :: expChars e) = [digitCh d] ++ 'e' :: expChars e from rfl]
  rw [takeWhile_app_not isDigitCh _ 'e' _
      (by intro c hc; simp at hc; simp [hc, (digitCh_facts d h10).2.1]) (by decide),
    dropWhile_app_not isDigitCh _ 'e' _
      (by intro c hc; simp at hc; simp [hc, (digitCh_facts d h10).2.1]) (by decide)]
  have hstep : parseDecBody neg [digitCh d] ('e' :: expChars e) =
      (if (('e' = 'e' || 'e' = 'E') && !([digitCh d] : JSStr).isEmpty) = true then
        match parseExpTail (expChars e) with
        | some e2 => some (JSNum.make neg (([digitCh d] : JSStr).map digitVal) e2)
        | none => none
      else none) := rfl
  rw [hstep, parseExpTail_expChars e he]
  rw [if_pos (by simp)]
  dsimp only
  rw [show ([digitCh d] : JSStr).map digitVal = [d] by
    rw [show ([digitCh d] : JSStr).map digitVal = [digitVal (digitCh d)] from rfl,
      (digitCh_facts d h10).1]]
  rw [make_block neg [d] e (by simp) (by simpa using hd0) (by simpa using hd0)]

/-- Reading back a printed multi-digit exponential body. -/
theorem parseDec_exp_many (neg : Bool) (d : Nat) (rest : List Nat) (e : Int)
    (h10 : ∀ x ∈ d :: rest, x < 10) (hd0 : d ≠ 0) (hrne : rest ≠ [])
    (hl : (d :: rest).getLast (by simp) ≠ 0) (he : e ≠ 0) :
    parseDecAfterSign neg
        (digitCh d :: '.' :: (digitChars rest ++ 'e' :: expChars e)) =
      some ⟨neg, d :: rest, e - (rest.length : Int)⟩ := by
  have h10r : ∀ x ∈ rest, x < 10 := fun x hx => h10 x (by simp [hx])
  have hinf : (digitCh d :: '.' :: (digitChars rest ++ 'e' :: expChars e)) ≠ infinityChars :=
    head_digit_ne_infinity _ _ (digitCh_facts d (h10 d (by simp))).2.1
  unfold parseDecAfterSign
  rw [if_neg hinf]
  rw [show (digitCh d :: '.' :: (digitChars rest ++ 'e' :: expChars e)) =
    [digitCh d] ++ '.' :: (digitChars rest ++ 'e' :: expChars e) from rfl]
  rw [takeWhile_app_not isDigitCh _ '.' _
      (by intro c hc; simp at hc; simp [hc, (digitCh_facts d (h10 d (by simp))).2.1])
      (by decide),
    dropWhile_app_not isDigitCh _ '.' _
      (by intro c hc; simp at hc; simp [hc, (digitCh_facts d (h10 d (by simp))).2.1])
      (by decide)]
  rw [show parseDecBody neg [digitCh d] ('.' :: (digitChars rest ++ 'e' :: expChars e)) =
    parseDecFrac neg [digitCh d]
      ((digitChars rest ++ 'e' :: expChars e).takeWhile isDigitCh)
      ((digitChars rest ++ 'e' :: expChars e).dropWhile isDigitCh) from rfl]
  rw [takeWhile_app_not isDigitCh _ 'e' _ (digitChars_all_digit _ h10r) (by decide),
    dropWhile_app_not isDigitCh _ 'e' _ (digitChars_all_digit _ h10r) (by decide)]
  have hstep : parseDecFrac neg [digitCh d] (digitChars rest) ('e' :: expChars e) =
      (if (([digitCh d] : JSStr).isEmpty && (digitChars rest).isEmpty) = true then none
      else if ('e' = 'e' || 'e' = 'E') = true then
        match parseExpTail (expChars e) with
        | some e2 => some (JSNum.make neg
            (([digitCh d] ++ digitChars rest).map digitVal) (e2 - ((digitChars rest).length : Int)))
        | none => none
      else none) := rfl
  rw [hstep, parseExpTail_expChars e he]
  rw [if_neg (by simp), if_pos (by decide)]
  dsimp only
  have hmap : ([digitCh d] ++ digitChars rest).map digitVal = d :: rest := by
    rw [List.map_append]
    rw [show ([digitCh d] : JSStr).map digitVal = [digitVal (digitCh d)] from rfl,
      (digitCh_facts d (h10 d (by simp))).1, map_digitVal_digitChars rest h10r]
    rfl
  rw [hmap]
  rw [make_block neg (d :: rest) _ (by simp) (by simpa using hd0) (by simpa using hl)]
  have hlen : (digitChars rest).length = rest.length := by
    unfold digitChars
    simp
  rw [hlen]

/-- Digit characters are not whitespace. -/
theorem digitChars_nows (ds : List Nat) (h10 : ∀ d ∈ ds, d < 10) :
    ∀ c ∈ digitChars ds, isWsCh c = false := by
  intro c hc
  obtain ⟨d, hd, rfl⟩ := List.mem_map.mp hc
  exact (digitCh_facts d (h10 d hd)).2.2.1

/-- Exponent characters are not whitespace. -/
theorem expChars_nows (e : Int) : ∀ c ∈ expChars e, isWsCh c = false := by
  intro c hc
  unfold expChars at hc
  rcases List.mem_append.mp hc with h1 | h1
  · split at h1 <;> simp at h1 <;> subst h1 <;> decide
  · exact digitChars_nows _ (natDigits_lt10 _) c h1

/-- Zero padding is not whitespace. -/
theorem replicate0_nows (z : Nat) : ∀ c ∈ List.replicate z '0', isWsCh c = false := by
  intro c hc
  rw [List.eq_of_mem_replicate hc]
  decide

/-- Entry into the decimal parser for a body with a plain head. -/
theorem strToNum_plainhead (c : Char) (t : JSStr)
    (hnw : ∀ ch ∈ c :: t, isWsCh ch = false)
    (hc0 : c ≠ '0') (hcp : c ≠ '+') (hcm : c ≠ '-') :
    strToNum (c :: t) = parseDecAfterSign false (c :: t) := by
  unfold strToNum
  rw [jsTrim_nows _ hnw]
  dsimp only
  rw [if_neg hc0, if_neg hcp, if_neg hcm]

/-- Entry into the decimal parser for a negated body. -/
theorem strToNum_neghead (body : JSStr) (hnw : ∀ ch ∈ body, isWsCh ch = false) :
    strToNum ('-' :: body) = parseDecAfterSign true body := by
  unfold strToNum
  rw [jsTrim_nows _ (by
    intro ch hch
    rcases List.mem_cons.mp hch with h1 | h1
    · subst h1
      decide
    · exact hnw ch h1)]
  dsimp only
  rw [if_neg (by decide), if_neg (by decide), if_pos rfl]

/-- Entry into the decimal parser for a body opening with a zero and a
point. -/
theorem strToNum_zerodot (l2 : JSStr)
    (hnw : ∀ ch ∈ '0' :: '.' :: l2, isWsCh ch = false) :
    strToNum ('0' :: '.' :: l2) = parseDecAfterSign false ('0' :: '.' :: l2) := by
  unfold strToNum
  rw [jsTrim_nows _ hnw]
  dsimp only
  rw [if_pos rfl]
  try dsimp only
  rw [if_neg (by decide), if_neg (by decide), if_neg (by decide)]

/-- Entry into the decimal parser, sign included, for a plain-headed body. -/
theorem strToNum_signed (nx : Bool) (body : JSStr) (c : Char) (t : JSStr)
    (hbt : body = c :: t) (hnw : ∀ ch ∈ body, isWsCh ch = false)
    (hc0 : c ≠ '0') (hcp : c ≠ '+') (hcm : c ≠ '-') :
    strToNum ((if nx then ['-'] else []) ++ body) = parseDecAfterSign nx body := by
  cases nx with
  | false =>
    rw [if_neg (by simp), List.nil_append]
    subst hbt
    exact strToNum_plainhead c t hnw hc0 hcp hcm
  | true =>
    rw [if_pos rfl, List.singleton_append]
    exact strToNum_neghead body hnw

/-- Entry into the decimal parser, sign included, for a zero-point body. -/
theorem strToNum_signed_zerodot (nx : Bool) (l2 : JSStr)
    (hnw : ∀ ch ∈ '0' :: '.' :: l2, isWsCh ch = false) :
    strToNum ((if nx then ['-'] else []) ++ ('0' :: '.' :: l2)) =
      parseDecAfterSign nx ('0' :: '.' :: l2) := by
  cases nx with
  | false =>
    rw [if_neg (by simp), List.nil_append]
    exact strToNum_zerodot l2 hnw
  | true =>
    rw [if_pos rfl, List.singleton_append]
    exact strToNum_neghead _ hnw

/-- The number printing/parsing round trip: parsing the printed form of a
canonical finite number recovers it exactly.  This is the property the
ECMAScript shortest-round-trip printing guarantees on the host. -/
theorem strToNum_numToStr (x : JSNum) (hc : x.canonical = true) :
    strToNum (numToStr x) = some x := by
  obtain ⟨nx, dx, ex⟩ := x
  by_cases hz : dx = []
  · subst hz
    unfold JSNum.canonical at hc
    simp at hc
    obtain ⟨h1, h2⟩ := hc
    subst h1
    subst h2
    rfl
  · obtain ⟨h10, hh, hl⟩ := canonical_digits ⟨nx, dx, ex⟩ hc hz
    unfold numToStr numBody numPointPos
    dsimp only at h10 hh hl ⊢
    rw [if_neg (by simpa using hz)]
    set sgn : JSStr := (if nx = true then ['-'] else []) with hsgn
    split_ifs with h1 h2 h3
    · rcases hdx : dx with _ | ⟨d0, restd⟩
      · exact absurd hdx hz
      subst hdx
      have hd010 : d0 < 10 := h10 d0 (by simp)
      have hd0ne : d0 ≠ 0 := by simpa using hh
      have hshape : digitChars (d0 :: restd) ++ List.replicate ex.toNat '0' =
          digitCh d0 :: (digitChars restd ++ List.replicate ex.toNat '0') := by
        rw [digitChars_cons, List.cons_append]
      have hnw : ∀ ch ∈ digitChars (d0 :: restd) ++ List.replicate ex.toNat '0',
          isWsCh ch = false := by
        intro ch hch
        rcases List.mem_append.mp hch with ha | ha
        · exact digitChars_nows _ h10 ch ha
        · exact replicate0_nows _ ch ha
      rw [hsgn, strToNum_signed nx _ (digitCh d0) _ hshape hnw
        (digitCh_ne_zeroCh d0 hd010 hd0ne) (digitCh_facts d0 hd010).2.2.2.2.2.2.1
        (digitCh_facts d0 hd010).2.2.2.2.2.2.2.1]
      rw [parseDec_digits nx (d0 :: restd) ex.toNat h10 hz hh hl]
      simp only [Bool.and_eq_true, decide_eq_true_eq] at h1
      rw [Int.toNat_of_nonneg h1.1]
    · simp only [Bool.and_eq_true, decide_eq_true_eq] at h1 h2
      have hkpos : (0 : Int) < dx.length := by
        rcases dx with _ | _
        · exact absurd rfl hz
        · simp
      have hexneg : ex < 0 := by
        by_contra hcon
        exact h1 ⟨by omega, h2.2⟩
      set tn := (ex + (dx.length : Int)).toNat with htn
      have ht0 : 0 < tn := by omega
      have htk : tn < dx.length := by omega
      have hmapt : (digitChars dx).take tn = digitChars (dx.take tn) := by
        unfold digitChars
        rw [List.map_take]
      have hmapd : (digitChars dx).drop tn = digitChars (dx.drop tn) := by
        unfold digitChars
        rw [List.map_drop]
      rw [hmapt, hmapd]
      rcases hts : dx.take tn with _ | ⟨dt, tt⟩
      · exfalso
        rcases List.take_eq_nil_iff.mp hts with ha | ha
        · omega
        · exact hz ha
      have hdt : dx.head? = some dt := by
        have : (dx.take tn).head? = dx.head? := by
          rw [List.head?_take, if_neg (by omega)]
        rw [hts] at this
        simpa using this.symm
      have hdtmem : dt ∈ dx := by
        rcases dx with _ | ⟨a, b⟩
        · exact absurd rfl hz
        · simp at hdt
          simp [hdt]
      have hdt10 : dt < 10 := h10 dt hdtmem
      have hdtne : dt ≠ 0 := by
        intro hcon
        apply hh
        rcases dx with _ | ⟨a, b⟩
        · exact absurd rfl hz
        · simp at hdt
          simp [hdt, hcon]
      have hshape : digitChars (dt :: tt) ++ '.' :: digitChars (dx.drop tn) =
          digitCh dt :: (digitChars tt ++ '.' :: digitChars (dx.drop tn)) := by
        rw [digitChars_cons, List.cons_append]
      have hnw : ∀ ch ∈ digitChars (dt :: tt) ++ '.' :: digitChars (dx.drop tn),
          isWsCh ch = false := by
        intro ch hch
        rcases List.mem_append.mp hch with ha | ha
        · refine digitChars_nows _ (fun d hd => h10 d ?_) ch ha
          rw [← hts] at hd
          exact List.mem_of_mem_take hd
        · rcases List.mem_cons.mp ha with hb | hb
          · subst hb
            decide
          · exact digitChars_nows _ (fun d hd => h10 d (List.mem_of_mem_drop hd)) ch hb
      rw [hsgn, strToNum_signed nx _ (digitCh dt) _ hshape hnw
        (digitCh_ne_zeroCh dt hdt10 hdtne) (digitCh_facts dt hdt10).2.2.2.2.2.2.1
        (digitCh_facts dt hdt10).2.2.2.2.2.2.2.1]
      have hpp := parseDec_point nx dx tn h10 hz hh hl ht0 htk
      rw [hts] at hpp
      rw [hpp]
      have hE : -(((dx.drop tn).length : Nat) : Int) = ex := by
        rw [List.length_drop]
        push_cast
        omega
      rw [hE]
    · have hnw : ∀ ch ∈ '0' :: '.' ::
          (List.replicate (-(ex + (dx.length : Int))).toNat '0' ++ digitChars dx),
          isWsCh ch = false := by
        intro ch hch
        rcases List.mem_cons.mp hch with ha | ha
        · subst ha
          decide
        rcases List.mem_cons.mp ha with hb | hb
        · subst hb
          decide
        rcases List.mem_append.mp hb with hd | hd
        · exact replicate0_nows _ ch hd
        · exact digitChars_nows _ h10 ch hd
      rw [hsgn, strToNum_signed_zerodot nx _ hnw]
      rw [parseDec_leadzeros nx dx (-(ex + (dx.length : Int))).toNat h10 hz hh hl]
      simp only [Bool.and_eq_true, decide_eq_true_eq] at h3
      have hE : -((((-(ex + (dx.length : Int))).toNat + dx.length : Nat) : Int)) = ex := by
        push_cast
        omega
      rw [hE]
    · have hkpos : (0 : Int) < dx.length := by
        rcases dx with _ | _
        · exact absurd rfl hz
        · simp
      simp only [Bool.and_eq_true, decide_eq_true_eq] at h1 h2 h3
      have he : ex + (dx.length : Int) - 1 ≠ 0 := by
        rcases not_and_or.mp h2 with ha | ha <;> rcases not_and_or.mp h3 with hb | hb <;>
          omega
      rcases hdx : dx with _ | ⟨d0, restd⟩
      · exact absurd hdx hz
      subst hdx
      have hd010 : d0 < 10 := h10 d0 (by simp)
      have hd0ne : d0 ≠ 0 := by simpa using hh
      rw [digitChars_cons]
      rcases restd with _ | ⟨d1, t1⟩
      · rw [show digitChars ([] : List Nat) = [] from rfl]
        simp only [List.isEmpty_nil, if_true, List.nil_append]
        have hnw : ∀ ch ∈ digitCh d0 :: 'e' ::
            expChars (ex + (([d0] : List Nat).length : Int) - 1), isWsCh ch = false := by
          intro ch hch
          rcases List.mem_cons.mp hch with ha | ha
          · subst ha
            exact (digitCh_facts d0 hd010).2.2.1
          rcases List.mem_cons.mp ha with hb | hb
          · subst hb
            decide
          · exact expChars_nows _ ch hb
        rw [hsgn, strToNum_signed nx _ (digitCh d0) _ rfl hnw
          (digitCh_ne_zeroCh d0 hd010 hd0ne) (digitCh_facts d0 hd010).2.2.2.2.2.2.1
          (digitCh_facts d0 hd010).2.2.2.2.2.2.2.1]
        rw [parseDec_exp_one nx d0 _ hd010 hd0ne (by simpa using he)]
        have hE : ex + (([d0] : List Nat).length : Int) - 1 = ex := by
          simp
        rw [hE]
      · dsimp only
        rw [show ((digitChars (d1 :: t1)).isEmpty = false) from by
          rw [digitChars_cons]
          rfl]
        simp only [Bool.false_eq_true, if_false]
        rw [show digitCh d0 :: (('.' :: digitChars (d1 :: t1)) ++
            'e' :: expChars (ex + ((d0 :: d1 :: t1).length : Int) - 1)) =
          digitCh d0 :: '.' :: (digitChars (d1 :: t1) ++
            'e' :: expChars (ex + ((d0 :: d1 :: t1).length : Int) - 1)) from by
          rw [List.cons_append]]
        have hnw : ∀ ch ∈ digitCh d0 :: '.' :: (digitChars (d1 :: t1) ++
            'e' :: expChars (ex + ((d0 :: d1 :: t1).length : Int) - 1)), isWsCh ch = false := by
          intro ch hch
          rcases List.mem_cons.mp hch with ha | ha
          · subst ha
            exact (digitCh_facts d0 hd010).2.2.1
          rcases List.mem_cons.mp ha with hb | hb
          · subst hb
            decide
          rcases List.mem_append.mp hb with hd | hd
          · exact digitChars_nows _ (fun d hdm => h10 d (List.mem_cons_of_mem _ hdm)) ch hd
          rcases List.mem_cons.mp hd with he2 | he2
          · subst he2
            decide
          · exact expChars_nows _ ch he2
        rw [hsgn, strToNum_signed nx _ (digitCh d0) _ rfl hnw
          (digitCh_ne_zeroCh d0 hd010 hd0ne) (digitCh_facts d0 hd010).2.2.2.2.2.2.1
          (digitCh_facts d0 hd010).2.2.2.2.2.2.2.1]
        rw [parseDec_exp_many nx d0 (d1 :: t1) _ h10 hd0ne (by simp)
          (by simpa using hl) (by simpa using he)]
        have hE : ex + ((d0 :: d1 :: t1).length : Int) - 1 - ((d1 :: t1).length : Int) =
            ex := by
          simp only [List.length_cons]
          push_cast
          ring
        rw [hE]

/-- Facts about the uppercase hex digit of a nibble. -/
theorem hexCh_facts (d : Nat) (h : d < 16) :
    isHexCh (hexCh d) = true ∧ hexVal (hexCh d) = d ∧ hexCh d ≠ '&' ∧ hexCh d ≠ '=' ∧
    hexCh d ≠ '?' := by
  interval_cases d <;> exact ⟨by decide, by decide, by decide, by decide, by decide⟩

/-- A character is a valid Unicode scalar value. -/
theorem char_toNat_lt (c : Char) : c.toNat < 1114112 := by
  have he : c.toNat = c.val.toNat := rfl
  rcases c.valid with h | h
  · omega
  · omega

/-- UTF-8 bytes fit in a byte. -/
theorem utf8Bytes_lt256 (n : Nat) (h : n < 1114112) : ∀ b ∈ utf8Bytes n, b < 256 := by
  intro b hb
  unfold utf8Bytes at hb
  split_ifs at hb with h1 h2 h3
  · simp only [List.mem_singleton] at hb
    omega
  · simp only [List.mem_cons, List.not_mem_nil, or_false] at hb
    rcases hb with rfl | rfl <;> omega
  · simp only [List.mem_cons, List.not_mem_nil, or_false] at hb
    rcases hb with rfl | rfl | rfl <;> omega
  · simp only [List.mem_cons, List.not_mem_nil, or_false] at hb
    rcases hb with rfl | rfl | rfl | rfl <;> omega

/-- The UTF-8 rendering of a scalar is never empty. -/
theorem utf8Bytes_ne_nil (n : Nat) : utf8Bytes n ≠ [] := by
  unfold utf8Bytes
  split_ifs <;> simp

/-- Tokenizing a well-formed percent escape. -/
theorem urlTokens_pct (h1 h2 : Char) (r : List Char)
    (hh : isHexCh h1 = true ∧ isHexCh h2 = true) :
    urlTokens ('%' :: h1 :: h2 :: r) = .byte (16 * hexVal h1 + hexVal h2) :: urlTokens r := by
  have hcond : (isHexCh h1 && isHexCh h2) = true := by rw [hh.1, hh.2]; rfl
  simp only [urlTokens]
  rw [if_pos hcond]

/-- Tokenizing one escaped byte. -/
theorem urlTokens_byteHex (b : Nat) (hb : b < 256) (r : List Char) :
    urlTokens (byteHex b ++ r) = .byte b :: urlTokens r := by
  have hq : b / 16 < 16 := by omega
  have hm : b % 16 < 16 := by omega
  have f1 := hexCh_facts _ hq
  have f2 := hexCh_facts _ hm
  show urlTokens ('%' :: hexCh (b / 16) :: hexCh (b % 16) :: r) = _
  rw [urlTokens_pct _ _ r ⟨f1.1, f2.1⟩, f1.2.1, f2.2.1]
  congr 2
  omega

/-- Tokenizing a run of escaped bytes. -/
theorem urlTokens_bytes (bs : List Nat) (hb : ∀ b ∈ bs, b < 256) (r : List Char) :
    urlTokens ((bs.map byteHex).flatten ++ r) = bs.map .byte ++ urlTokens r := by
  induction bs with
  | nil => simp
  | cons b t ih =>
    simp only [List.map_cons, List.flatten_cons, List.append_assoc]
    rw [urlTokens_byteHex b (hb b (by simp)) _, ih fun x hx => hb x (by simp [hx])]
    rfl

/-- Decoding one UTF-8-rendered scalar recovers it and the remainder. -/
theorem utf8DecodeOne_bytes (n : Nat) (h : n < 1114112) (r : List Nat) :
    utf8DecodeOne (utf8Bytes n ++ r) = some (n, r) := by
  unfold utf8Bytes
  split_ifs with h1 h2 h3
  · rw [List.singleton_append]
    unfold utf8DecodeOne
    dsimp only
    rw [if_pos h1]
  · rw [show ([0xC0 + n / 64, 0x80 + n % 64] ++ r) =
      (0xC0 + n / 64) :: (0x80 + n % 64) :: r from rfl]
    unfold utf8DecodeOne
    dsimp only
    have hx1 : ¬(0xC0 + n / 64 < 0x80) := by omega
    have hx2 : (decide (0xC0 ≤ 0xC0 + n / 64) && decide (0xC0 + n / 64 < 0xE0)) = true := by
      simp only [Bool.and_eq_true, decide_eq_true_eq]
      omega
    have hx3 : isContByte (0x80 + n % 64) = true := by
      unfold isContByte
      simp only [Bool.and_eq_true, decide_eq_true_eq]
      omega
    rw [if_neg hx1, if_pos hx2, if_pos hx3]
    simp only [Option.some.injEq, Prod.mk.injEq]
    exact ⟨by omega, trivial⟩
  · rw [show ([0xE0 + n / 4096, 0x80 + n / 64 % 64, 0x80 + n % 64] ++ r) =
      (0xE0 + n / 4096) :: (0x80 + n / 64 % 64) :: (0x80 + n % 64) :: r from rfl]
    unfold utf8DecodeOne
    dsimp only
    have hx1 : ¬(0xE0 + n / 4096 < 0x80) := by omega
    have hx2 : ¬((decide (0xC0 ≤ 0xE0 + n / 4096) && decide (0xE0 + n / 4096 < 0xE0))
        = true) := by
      simp only [Bool.and_eq_true, decide_eq_true_eq, not_and]
      omega
    have hx3 : (decide (0xE0 ≤ 0xE0 + n / 4096) && decide (0xE0 + n / 4096 < 0xF0))
        = true := by
      simp only [Bool.and_eq_true, decide_eq_true_eq]
      omega
    have hx4 : (isContByte (0x80 + n / 64 % 64) && isContByte (0x80 + n % 64)) = true := by
      unfold isContByte
      simp only [Bool.and_eq_true, decide_eq_true_eq]
      omega
    rw [if_neg hx1, if_neg hx2, if_pos hx3, if_pos hx4]
    simp only [Option.some.injEq, Prod.mk.injEq]
    exact ⟨by omega, trivial⟩
  · rw [show ([0xF0 + n / 262144, 0x80 + n / 4096 % 64, 0x80 + n / 64 % 64, 0x80 + n % 64]
        ++ r) = (0xF0 + n / 262144) :: (0x80 + n / 4096 % 64) :: (0x80 + n / 64 % 64) ::
        (0x80 + n % 64) :: r from rfl]
    unfold utf8DecodeOne
    dsimp only
    have hd : n / 262144 < 5 := by omega
    have hx1 : ¬(0xF0 + n / 262144 < 0x80) := by omega
    have hx2 : ¬((decide (0xC0 ≤ 0xF0 + n / 262144) && decide (0xF0 + n / 262144 < 0xE0))
        = true) := by
      simp only [Bool.and_eq_true, decide_eq_true_eq, not_and]
      omega
    have hx3 : ¬((decide (0xE0 ≤ 0xF0 + n / 262144) && decide (0xF0 + n / 262144 < 0xF0))
        = true) := by
      simp only [Bool.and_eq_true, decide_eq_true_eq, not_and]
      omega
    have hx4 : (decide (0xF0 ≤ 0xF0 + n / 262144) && decide (0xF0 + n / 262144 < 0xF8))
        = true := by
      simp only [Bool.and_eq_true, decide_eq_true_eq]
      omega
    have hx5 : (isContByte (0x80 + n / 4096 % 64) && isContByte (0x80 + n / 64 % 64) &&
        isContByte (0x80 + n % 64)) = true := by
      unfold isContByte
      simp only [Bool.and_eq_true, decide_eq_true_eq]
      omega
    rw [if_neg hx1, if_neg hx2, if_neg hx3, if_pos hx4, if_pos hx5]
    simp only [Option.some.injEq, Prod.mk.injEq]
    exact ⟨by omega, trivial⟩

/-- Collecting the byte prefix of a token list headed by a byte. -/
theorem tokBytes_byte_cons (b : Nat) (r : List UrlTok) :
    tokBytes (.byte b :: r) = (b :: (tokBytes r).1, (tokBytes r).2) := rfl

/-- Byte collection stops at a plain-character token. -/
theorem tokBytes_ch_cons (c : Char) (r : List UrlTok) :
    tokBytes (.ch c :: r) = ([], .ch c :: r) := rfl

/-- Byte collection over a byte run followed by anything. -/
theorem tokBytes_run (bs : List Nat) (ts : List UrlTok) :
    tokBytes (bs.map .byte ++ ts) = (bs ++ (tokBytes ts).1, (tokBytes ts).2) := by
  induction bs with
  | nil => simp
  | cons b t ih =>
    simp only [List.map_cons, List.cons_append]
    rw [tokBytes_byte_cons, ih]

/-- Rendering a character's scalar value back to a character. -/
theorem scalarToCh_toNat (c : Char) : scalarToCh c.toNat = c := by
  have hv : c.toNat.isValidChar := c.valid
  unfold scalarToCh
  rw [dif_pos hv]
  have hn := Char.ofNat_toNat c
  unfold Char.ofNat at hn
  rw [dif_pos hv] at hn
  exact hn

/-- Decoding a concatenation of UTF-8-rendered characters with adequate
fuel recovers the characters. -/
theorem utf8DecodeList_blocks (cs : List Char) (fuel : Nat)
    (hf : ((cs.map fun c => utf8Bytes c.toNat).flatten).length ≤ fuel) :
    utf8DecodeList fuel ((cs.map fun c => utf8Bytes c.toNat).flatten) = cs := by
  induction cs generalizing fuel with
  | nil => cases fuel <;> rfl
  | cons c t ih =>
    simp only [List.map_cons, List.flatten_cons] at hf ⊢
    have hne := utf8Bytes_ne_nil c.toNat
    have hlen : 1 ≤ (utf8Bytes c.toNat).length := by
      rcases hxb : utf8Bytes c.toNat with _ | ⟨b0, bt⟩
      · exact absurd hxb hne
      · simp
    cases fuel with
    | zero =>
      exfalso
      rw [List.length_append] at hf
      omega
    | succ f =>
      rw [show utf8DecodeList (f + 1)
            (utf8Bytes c.toNat ++ ((t.map fun c => utf8Bytes c.toNat)).flatten) =
          (match utf8DecodeOne
              (utf8Bytes c.toNat ++ ((t.map fun c => utf8Bytes c.toNat)).flatten) with
           | some (n, r) => scalarToCh n :: utf8DecodeList f r
           | none => '�' :: utf8DecodeList f
              (utf8Bytes c.toNat ++ ((t.map fun c => utf8Bytes c.toNat)).flatten).tail)
          from by
        rcases hxb : utf8Bytes c.toNat with _ | ⟨b0, bt⟩
        · exact absurd hxb hne
        · rfl]
      rw [utf8DecodeOne_bytes c.toNat (char_toNat_lt c) _]
      dsimp only
      rw [scalarToCh_toNat]
      rw [ih f (by rw [List.length_append] at hf; omega)]

/-- Tokenizing the encoding of a character that is not percent-escaped. -/
theorem urlTokens_encodeCh_plain (c : Char) (hesc : escCh c = false) (r : List Char) :
    urlTokens (encodeCh c ++ r) = .ch c :: urlTokens r := by
  unfold escCh at hesc
  simp only [Bool.and_eq_false_iff, Bool.not_eq_false', Bool.not_eq_false,
    decide_eq_true_eq] at hesc
  rcases hesc with hsafe | hsp
  · rw [show encodeCh c = [c] from by unfold encodeCh; rw [if_pos hsafe]]
    rw [List.singleton_append]
    refine urlTokens_cons_plain c r ?_ ?_
    · intro hcon
      subst hcon
      exact absurd hsafe (by decide)
    · intro hcon
      subst hcon
      exact absurd hsafe (by decide)
  · subst hsp
    rw [show encodeCh ' ' = ['+'] from rfl, List.singleton_append]
    simp only [urlTokens]

/-- Tokenizing the encoding of a percent-escaped character. -/
theorem urlTokens_encodeCh_esc (c : Char) (hesc : escCh c = true) (r : List Char) :
    urlTokens (encodeCh c ++ r) = (utf8Bytes c.toNat).map .byte ++ urlTokens r := by
  unfold escCh at hesc
  simp only [Bool.and_eq_true, Bool.not_eq_true', Bool.not_eq_true, decide_eq_false_iff_not]
    at hesc
  rw [show encodeCh c = ((utf8Bytes c.toNat).map byteHex).flatten from by
    unfold encodeCh
    rw [if_neg (by simp [hesc.1]), if_neg (by simp [hesc.2])]]
  exact urlTokens_bytes _ (utf8Bytes_lt256 _ (char_toNat_lt c)) r

/-- One encoded character appended to an encoded remainder. -/
theorem encodeStr_cons (c : Char) (t : JSStr) :
    encodeStr (c :: t) = encodeCh c ++ encodeStr t := by
  unfold encodeStr
  rw [List.map_cons, List.flatten_cons]

/-- The token stream of an encoded string: the byte tokens of the leading
escape run, then the stream of the rest. -/
theorem urlTokens_enc_run (s : JSStr) :
    urlTokens (encodeStr s) =
      (((s.takeWhile escCh).map fun c => utf8Bytes c.toNat).flatten).map UrlTok.byte ++
        urlTokens (encodeStr (s.dropWhile escCh)) := by
  induction s with
  | nil => simp
  | cons c t ih =>
    by_cases hc : escCh c = true
    · rw [List.takeWhile_cons_of_pos hc, List.dropWhile_cons_of_pos hc]
      rw [encodeStr_cons, urlTokens_encodeCh_esc c hc, ih]
      simp [List.append_assoc]
    · rw [List.takeWhile_cons_of_neg (by simp [hc]), List.dropWhile_cons_of_neg (by simp [hc])]
      simp

/-- Byte collection finds nothing at the stream of a string that does not
start with an escaped character. -/
theorem tokBytes_enc_head (s : JSStr)
    (h : match s with | [] => True | c :: _ => escCh c = false) :
    tokBytes (urlTokens (encodeStr s)) = ([], urlTokens (encodeStr s)) := by
  cases s with
  | nil => rfl
  | cons c t =>
    rw [encodeStr_cons, urlTokens_encodeCh_plain c h, tokBytes_ch_cons]

/-- Decoding step on a plain-character token. -/
theorem decodeToks_ch_cons (f : Nat) (c : Char) (r : List UrlTok) :
    decodeToks (f + 1) (.ch c :: r) = c :: decodeToks f r := rfl

/-- Decoding step on a byte token: the whole byte run is decoded as UTF-8. -/
theorem decodeToks_byte_cons (f : Nat) (b : Nat) (r : List UrlTok) :
    decodeToks (f + 1) (.byte b :: r) =
      utf8DecodeList (tokBytes (UrlTok.byte b :: r)).1.length
          (tokBytes (UrlTok.byte b :: r)).1 ++
        decodeToks f (tokBytes (UrlTok.byte b :: r)).2 := rfl

/-- The head of a predicate-dropped remainder fails the predicate. -/
theorem dropWhile_head_false (p : Char → Bool) (l : JSStr) (c : Char) (t : JSStr)
    (h : l.dropWhile p = c :: t) : p c = false := by
  induction l with
  | nil => simp at h
  | cons a r ih =>
    rw [List.dropWhile_cons] at h
    split_ifs at h with ha
    · exact ih h
    · obtain ⟨rfl, rfl⟩ : a = c ∧ r = t := by
        injection h with h1 h2
        exact ⟨h1, h2⟩
      simpa using ha

/-- The byte block of the escape run of a nonempty escaped head. -/
theorem enc_run_block_ne_nil (c : Char) (t : JSStr) (hc : escCh c = true) :
    (((c :: t).takeWhile escCh).map fun x => utf8Bytes x.toNat).flatten ≠ [] := by
  rw [List.takeWhile_cons_of_pos hc]
  simp only [List.map_cons, List.flatten_cons]
  intro hcon
  exact utf8Bytes_ne_nil c.toNat (List.append_eq_nil.mp hcon).1

/-- Decoding the token stream of an encoded string with adequate fuel
recovers the string. -/
theorem decodeToks_encodeStr (fuel : Nat) : ∀ s : JSStr,
    (urlTokens (encodeStr s)).length ≤ fuel →
    decodeToks fuel (urlTokens (encodeStr s)) = s := by
  induction fuel with
  | zero =>
    intro s hf
    cases s with
    | nil => rfl
    | cons c t =>
      exfalso
      rw [urlTokens_enc_run] at hf
      by_cases hc : escCh c = true
      · have hne := enc_run_block_ne_nil c t hc
        rcases hB : (((c :: t).takeWhile escCh).map fun x => utf8Bytes x.toNat).flatten
          with _ | ⟨b0, bt⟩
        · exact absurd hB hne
        · rw [hB] at hf
          simp at hf
      · rw [Bool.not_eq_true] at hc
        rw [List.takeWhile_cons_of_neg (by simp [hc]),
          List.dropWhile_cons_of_neg (by simp [hc])] at hf
        rw [encodeStr_cons, urlTokens_encodeCh_plain c hc] at hf
        simp at hf
  | succ f ih =>
    intro s hf
    cases s with
    | nil => rfl
    | cons c t =>
      by_cases hc : escCh c = true
      · rw [urlTokens_enc_run] at hf ⊢
        have hne := enc_run_block_ne_nil c t hc
        rcases hB : (((c :: t).takeWhile escCh).map fun x => utf8Bytes x.toNat).flatten
          with _ | ⟨b0, bt⟩
        · exact absurd hB hne
        rw [hB, List.map_cons, List.cons_append] at hf ⊢
        rw [decodeToks_byte_cons, tokBytes_byte_cons, tokBytes_run,
          tokBytes_enc_head ((c :: t).dropWhile escCh) (by
            rcases hd : (c :: t).dropWhile escCh with _ | ⟨c2, t2⟩
            · trivial
            · exact dropWhile_head_false escCh (c :: t) c2 t2 hd)]
        simp only [List.append_nil]
        have hdec : utf8DecodeList (b0 :: bt).length (b0 :: bt) = (c :: t).takeWhile escCh := by
          rw [← hB]
          exact utf8DecodeList_blocks _ _ (le_refl _)
        rw [hdec]
        rw [ih ((c :: t).dropWhile escCh) (by
          rw [List.length_cons, List.length_append, List.length_map] at hf
          omega)]
        exact @List.takeWhile_append_dropWhile _ escCh (c :: t)
      · rw [Bool.not_eq_true] at hc
        rw [encodeStr_cons, urlTokens_encodeCh_plain c hc] at hf ⊢
        rw [decodeToks_ch_cons]
        rw [ih t (by rw [List.length_cons] at hf; omega)]

/-- Urldecoding inverts urlencoding. -/
theorem urlDecode_encodeStr (s : JSStr) : urlDecode (encodeStr s) = s := by
  unfold urlDecode
  exact decodeToks_encodeStr _ s (le_refl _)

/-- Every character an urlencoded string contains is harmless to the
query-string syntax: no separator, no equals sign, no question mark. -/
theorem encodeStr_chars (s : JSStr) :
    ∀ ch ∈ encodeStr s, ch ≠ '&' ∧ ch ≠ '=' ∧ ch ≠ '?' := by
  intro ch hch
  unfold encodeStr at hch
  rw [List.mem_flatten] at hch
  obtain ⟨l, hl, hchl⟩ := hch
  rw [List.mem_map] at hl
  obtain ⟨c, _, rfl⟩ := hl
  unfold encodeCh at hchl
  split_ifs at hchl with hsafe hsp
  · rw [List.mem_singleton] at hchl
    subst hchl
    refine ⟨?_, ?_, ?_⟩ <;> intro hcon <;> subst hcon <;> exact absurd hsafe (by decide)
  · rw [List.mem_singleton] at hchl
    subst hchl
    exact ⟨by decide, by decide, by decide⟩
  · rw [List.mem_flatten] at hchl
    obtain ⟨bl, hbl, hchb⟩ := hchl
    rw [List.mem_map] at hbl
    obtain ⟨b, hb, rfl⟩ := hbl
    have hb256 := utf8Bytes_lt256 c.toNat (char_toNat_lt c) b hb
    unfold byteHex at hchb
    have f1 := hexCh_facts (b / 16) (by omega)
    have f2 := hexCh_facts (b % 16) (by omega)
    rcases List.mem_cons.mp hchb with rfl | hchb
    · exact ⟨by decide, by decide, by decide⟩
    rcases List.mem_cons.mp hchb with rfl | hchb
    · exact ⟨f1.2.2.1, f1.2.2.2.1, f1.2.2.2.2⟩
    rcases List.mem_cons.mp hchb with rfl | hchb
    · exact ⟨f2.2.2.1, f2.2.2.2.1, f2.2.2.2.2⟩
    · simp at hchb

/-- Splitting never yields the empty chunk list. -/
theorem splitOnCh_ne_nil (sep : Char) (s : JSStr) : splitOnCh sep s ≠ [] := by
  cases s with
  | nil => simp [splitOnCh]
  | cons c t =>
    simp only [splitOnCh]
    rcases splitOnCh sep t with _ | ⟨h2, t2⟩
    · simp
    · split_ifs <;> simp

/-- Splitting a separator-free chunk glued onto a split remainder. -/
theorem splitOnCh_append_sep (sep : Char) (a b : JSStr) (h : ∀ c ∈ a, c ≠ sep) :
    splitOnCh sep (a ++ sep :: b) = a :: splitOnCh sep b := by
  induction a with
  | nil =>
    rw [List.nil_append]
    simp only [splitOnCh]
    rcases hb : splitOnCh sep b with _ | ⟨h2, t2⟩
    · exact absurd hb (splitOnCh_ne_nil sep b)
    · simp
  | cons c t ih =>
    rw [List.cons_append]
    simp only [splitOnCh]
    rw [ih fun x hx => h x (by simp [hx])]
    dsimp only
    rw [if_neg (h c (by simp))]

/-- Splitting the separator-joined chunks recovers them when no chunk
holds the separator. -/
theorem splitOnCh_intercalate (sep : Char) (chunks : List JSStr) (hne : chunks ≠ [])
    (h : ∀ c ∈ chunks, ∀ ch ∈ c, ch ≠ sep) :
    splitOnCh sep (List.intercalate [sep] chunks) = chunks := by
  induction chunks with
  | nil => exact absurd rfl hne
  | cons c t ih =>
    cases t with
    | nil =>
      rw [show List.intercalate [sep] [c] = c from by simp [List.intercalate]]
      exact splitOnCh_no_sep sep c fun x hx => h c (by simp) x hx
    | cons c2 t2 =>
      rw [show List.intercalate [sep] (c :: c2 :: t2) =
          c ++ sep :: List.intercalate [sep] (c2 :: t2) from by
        simp [List.intercalate, List.intersperse]]
      rw [splitOnCh_append_sep sep c _ fun x hx => h c (by simp) x hx]
      rw [ih (by simp) fun x hx ch hch => h x (by simp [hx]) ch hch]

/-- The serialized form of one parameter pair. -/
theorem paramsToString_cons (p : JSStr × JSStr) (t : Params) :
    paramsToString (p :: t) =
      if t.isEmpty then encodeStr p.1 ++ '=' :: encodeStr p.2
      else (encodeStr p.1 ++ '=' :: encodeStr p.2) ++ '&' :: paramsToString t := by
  cases t with
  | nil =>
    simp only [List.isEmpty_nil, if_true]
    unfold paramsToString
    simp [List.intercalate]
  | cons q r =>
    simp only [List.isEmpty_cons, Bool.false_eq_true, if_false]
    unfold paramsToString
    simp [List.intercalate, List.intersperse]

/-- Parsing the serialized parameter list recovers it exactly. -/
theorem urlParseParams_paramsToString (ps : Params) :
    urlParseParams (paramsToString ps) = ps := by
  cases hps : ps with
  | nil => rfl
  | cons p t =>
    unfold urlParseParams paramsToString
    rw [splitOnCh_intercalate '&' _ (by simp) (by
      intro c hc ch hch
      rw [List.mem_map] at hc
      obtain ⟨q, _, rfl⟩ := hc
      rcases List.mem_append.mp hch with ha | ha
      · exact (encodeStr_chars _ ch ha).1
      rcases List.mem_cons.mp ha with rfl | ha
      · decide
      · exact (encodeStr_chars _ ch ha).1)]
    rw [List.filter_eq_self.mpr (by
      intro c hc
      rw [List.mem_map] at hc
      obtain ⟨q, _, rfl⟩ := hc
      rcases hq : encodeStr q.1 with _ | ⟨e0, et⟩ <;> simp)]
    rw [List.map_map]
    conv_rhs => rw [show (p :: t : Params) = (p :: t).map id from by simp]
    refine List.map_congr_left ?_
    intro q _
    simp only [Function.comp_apply, id_eq]
    unfold splitFirstEq
    rw [takeWhile_app_not _ (encodeStr q.1) '=' (encodeStr q.2)
      (fun c hc => by simp [(encodeStr_chars _ c hc).2.1]) (by simp)]
    rw [dropWhile_app_not _ (encodeStr q.1) '=' (encodeStr q.2)
      (fun c hc => by simp [(encodeStr_chars _ c hc).2.1]) (by simp)]
    rw [List.tail_cons]
    rw [urlDecode_encodeStr, urlDecode_encodeStr]

/-- The serialized parameter list never starts with a question mark. -/
theorem stripQMark_paramsToString (ps : Params) :
    stripQMark (paramsToString ps) = paramsToString ps := by
  cases ps with
  | nil => rfl
  | cons p t =>
    refine stripQMark_id _ ?_
    rw [paramsToString_cons]
    split_ifs with ht
    · rcases hk : encodeStr p.1 with _ | ⟨e0, et⟩
      · simp [hk]
      · intro hcon
        simp only [List.cons_append, List.head?_cons, Option.some.injEq] at hcon
        exact (encodeStr_chars p.1 e0 (by simp [hk])).2.2 hcon
    · rcases hk : encodeStr p.1 with _ | ⟨e0, et⟩
      · simp [hk]
      · intro hcon
        simp only [List.cons_append, List.head?_cons, Option.some.injEq] at hcon
        exact (encodeStr_chars p.1 e0 (by simp [hk])).2.2 hcon

/-- Setting an absent key appends the pair. -/
theorem paramsSet_fresh (ps : Params) (k v : JSStr) (h : ∀ p ∈ ps, p.1 ≠ k) :
    paramsSet ps k v = ps ++ [(k, v)] := by
  induction ps with
  | nil => rfl
  | cons p t ih =>
    obtain ⟨k0, v0⟩ := p
    simp only [paramsSet]
    rw [if_neg (h (k0, v0) (by simp)), ih fun q hq => h q (by simp [hq])]
    rfl

/-- A fitting scalar is a string, a number, or a boolean. -/
theorem valueFits_shape (kd : Kind) (v : JSValue) (h : valueFits kd v = true) :
    (∃ s, v = .str s) ∨ (∃ x, v = .num x) ∨ (∃ b, v = .bool b) := by
  cases kd <;> cases v <;> simp_all [valueFits]

/-- A declared scalar entry of buildQuery always sets the generic string
rendering of its value. -/
theorem buildEntry_scalar (schema : Schema) (o : BuildOptions) (ps : Params) (k : JSStr)
    (v : JSValue) (f : SField) (hf : sLookup k schema = some f)
    (hv : (∃ s, v = .str s) ∨ (∃ x, v = .num x) ∨ (∃ b, v = .bool b)) :
    buildEntry schema o ps k v = paramsSet ps k (jsToString v) := by
  unfold buildEntry
  rw [hf]
  obtain ⟨kd, opt⟩ := f
  rcases hv with ⟨s, rfl⟩ | ⟨x, rfl⟩ | ⟨b, rfl⟩ <;> cases kd <;> rfl

/-- The buildQuery fold over fitting scalar entries appends each rendered
pair in order. -/
theorem buildQuery_foldl_scalar (schema : Schema) (o : BuildOptions) (m : Mapping) :
    ∀ ps : Params,
    (∀ kv ∈ m, (∃ f, sLookup kv.1 schema = some f) ∧ valueFits
      ((sLookup kv.1 schema).getD ⟨.str, false⟩).kind kv.2 = true) →
    (∀ kv ∈ m, ∀ p ∈ ps, p.1 ≠ kv.1) →
    (m.map Prod.fst).Nodup →
    m.foldl (fun ps kv => buildEntry schema o ps kv.1 kv.2) ps =
      ps ++ m.map fun kv => (kv.1, jsToString kv.2) := by
  induction m with
  | nil => intro ps _ _ _; simp
  | cons kv t ih =>
    intro ps hfit hfresh hnd
    obtain ⟨⟨f, hfk⟩, hfv⟩ := hfit kv (by simp)
    rw [List.foldl_cons]
    rw [buildEntry_scalar schema o ps kv.1 kv.2 f hfk
      (valueFits_shape _ _ (by rw [hfk] at hfv; exact hfv))]
    rw [paramsSet_fresh ps kv.1 (jsToString kv.2) fun p hp => hfresh kv (by simp) p hp]
    rw [ih (ps ++ [(kv.1, jsToString kv.2)])
      (fun q hq => hfit q (by simp [hq]))
      (fun q hq p hp => by
        rcases List.mem_append.mp hp with ha | ha
        · exact hfresh q (by simp [hq]) p ha
        · rw [List.mem_singleton] at ha
          subst ha
          rw [List.map_cons, List.nodup_cons] at hnd
          intro hcon
          refine hnd.1 ?_
          rw [hcon]
          exact List.mem_map_of_mem Prod.fst hq)
      (by rw [List.map_cons, List.nodup_cons] at hnd; exact hnd.2)]
    simp

/-- buildQuery on a nodup, fitting scalar mapping with default options. -/
theorem buildQuery_scalars (schema : Schema) (m : Mapping)
    (hfit : ∀ kv ∈ m, (∃ f, sLookup kv.1 schema = some f) ∧ valueFits
      ((sLookup kv.1 schema).getD ⟨.str, false⟩).kind kv.2 = true)
    (hnd : (m.map Prod.fst).Nodup) :
    buildQuery schema m ⟨false, false, false, false, none, []⟩ =
      m.map fun kv => (kv.1, jsToString kv.2) := by
  unfold buildQuery
  rw [show (⟨false, false⟩ : CleanOptions) = ⟨false, false⟩ from rfl]
  rw [cleanObject_default]
  rw [buildQuery_foldl_scalar schema _ m [] hfit (by simp) hnd]
  rfl

/-- Adding a fresh key to a grouped multimap appends a singleton group. -/
theorem addPair_fresh (acc : List (JSStr × List JSStr)) (k v : JSStr)
    (h : ∀ p ∈ acc, p.1 ≠ k) :
    addPair acc k v = acc ++ [(k, [v])] := by
  induction acc with
  | nil => rfl
  | cons p t ih =>
    obtain ⟨k0, vs⟩ := p
    simp only [addPair]
    rw [if_neg (h (k0, vs) (by simp)), ih fun q hq => h q (by simp [hq])]
    rfl

/-- The grouping fold over pairwise-distinct fresh keys appends singleton
groups in order. -/
theorem groupPairs_aux (ps : Params) : ∀ acc : List (JSStr × List JSStr),
    (ps.map Prod.fst).Nodup →
    (∀ q ∈ ps, ∀ p ∈ acc, p.1 ≠ q.1) →
    ps.foldl (fun acc p => addPair acc p.1 p.2) acc =
      acc ++ ps.map fun p => (p.1, [p.2]) := by
  induction ps with
  | nil => intro acc _ _; simp
  | cons p t ih =>
    intro acc hnd hfresh
    rw [List.foldl_cons, addPair_fresh acc p.1 p.2 fun q hq => hfresh p (by simp) q hq]
    rw [ih (acc ++ [(p.1, [p.2])])
      (by rw [List.map_cons, List.nodup_cons] at hnd; exact hnd.2)
      (fun q hq r hr => by
        rcases List.mem_append.mp hr with ha | ha
        · exact hfresh q (by simp [hq]) r ha
        · rw [List.mem_singleton] at ha
          subst ha
          rw [List.map_cons, List.nodup_cons] at hnd
          intro hcon
          refine hnd.1 ?_
          rw [hcon]
          exact List.mem_map_of_mem Prod.fst hq)]
    simp

/-- Grouping a pair list with pairwise-distinct keys gives singleton
groups in order. -/
theorem groupPairs_nodup (ps : Params) (hnd : (ps.map Prod.fst).Nodup) :
    groupPairs ps = ps.map fun p => (p.1, [p.2]) := by
  unfold groupPairs
  simpa using groupPairs_aux ps [] hnd (by simp)

/-- A fitting scalar determines its declared kind and shape. -/
theorem valueFits_kind (kd : Kind) (v : JSValue) (h : valueFits kd v = true) :
    (kd = .str ∧ ∃ s, v = .str s) ∨
    (kd = .num ∧ ∃ x, v = .num x ∧ x.canonical = true) ∨
    (kd = .bool ∧ ∃ b, v = .bool b) := by
  cases kd <;> cases v <;> simp_all [valueFits]

/-- Coercion inverts the generic string rendering on fitting scalars. -/
theorem coerceValue_jsToString (kd : Kind) (v : JSValue) (hfit : valueFits kd v = true) :
    coerceValue kd (jsToString v) = v := by
  rcases valueFits_kind kd v hfit with ⟨rfl, s, rfl⟩ | ⟨rfl, x, rfl, hx⟩ | ⟨rfl, b, rfl⟩
  · rfl
  · show coerceValue .num (numToStr x) = .num x
    unfold coerceValue
    rw [strToNum_numToStr x hx]
  · cases b <;> rfl

/-- The interim mapping parseQuery rebuilds from singleton groups of
rendered fitting scalars is the original mapping. -/
theorem buildInterim_scalars (schema : Schema) (m : Mapping)
    (hfit : ∀ kv ∈ m, (∃ f, sLookup kv.1 schema = some f) ∧ valueFits
      ((sLookup kv.1 schema).getD ⟨.str, false⟩).kind kv.2 = true) :
    buildInterim schema ⟨false, false, false, true, none, []⟩
      (m.map fun kv => (kv.1, [jsToString kv.2])) = .ok m := by
  induction m with
  | nil => rfl
  | cons kv t ih =>
    obtain ⟨⟨⟨kd, opt⟩, hf⟩, hv⟩ := hfit kv (by simp)
    rw [hf, Option.getD_some] at hv
    rw [List.map_cons]
    have hie : interimEntry schema ⟨false, false, false, true, none, []⟩ kv.1
        [jsToString kv.2] = .ok (some (kv.1, kv.2)) := by
      unfold interimEntry
      rw [hf]
      dsimp only
      rcases valueFits_kind kd kv.2 hv with ⟨hk, s, hs⟩ | ⟨hk, x, hx, hxc⟩ | ⟨hk, b, hb⟩ <;>
        subst hk <;>
        simp only [List.getLast?_singleton] <;>
        rw [if_pos trivial] <;>
        rw [coerceValue_jsToString _ kv.2 hv]
    rw [buildInterim, hie]
    rw [ih fun q hq => hfit q (by simp [hq])]
    rfl

/-- A conformant mapping has exactly the schema's keys, in order. -/
theorem conformant_keys (shape : Schema) (m : Mapping) (hc : conformant shape m = true) :
    m.map Prod.fst = shape.map Prod.fst := by
  induction shape generalizing m with
  | nil =>
    cases m with
    | nil => rfl
    | cons kv mm =>
      obtain ⟨a, b⟩ := kv
      exact absurd hc (by simp [conformant])
  | cons kf sh ih =>
    obtain ⟨k1, f⟩ := kf
    cases m with
    | nil => exact absurd hc (by simp [conformant])
    | cons kv mm =>
      obtain ⟨k2, v⟩ := kv
      simp only [conformant, Bool.and_eq_true, beq_iff_eq] at hc
      obtain ⟨⟨rfl, _⟩, hcr⟩ := hc
      rw [List.map_cons, List.map_cons, ih mm hcr]

/-- Every entry of a conformant mapping under a nodup schema resolves to
its declared field and fits it. -/
theorem conformant_fits (shape : Schema) (m : Mapping)
    (hnd : (shape.map Prod.fst).Nodup) (hc : conformant shape m = true) :
    ∀ kv ∈ m, (∃ f, sLookup kv.1 shape = some f) ∧ valueFits
      ((sLookup kv.1 shape).getD ⟨.str, false⟩).kind kv.2 = true := by
  induction shape generalizing m with
  | nil =>
    cases m with
    | nil => intro kv hkv; simp at hkv
    | cons kv mm =>
      obtain ⟨a, b⟩ := kv
      exact absurd hc (by simp [conformant])
  | cons kf sh ih =>
    obtain ⟨k1, f⟩ := kf
    cases m with
    | nil => exact absurd hc (by simp [conformant])
    | cons kv0 mm =>
      obtain ⟨k2, v⟩ := kv0
      simp only [conformant, Bool.and_eq_true, beq_iff_eq] at hc
      obtain ⟨⟨rfl, hvfit⟩, hcr⟩ := hc
      rw [List.map_cons, List.nodup_cons] at hnd
      intro kv hkv
      rcases List.mem_cons.mp hkv with rfl | hkv2
      · have hsl : sLookup k1 ((k1, f) :: sh) = some f := by
          simp only [sLookup]
          rw [if_pos trivial]
        rw [hsl, Option.getD_some]
        exact ⟨⟨f, rfl⟩, hvfit⟩
      · have hk2 : k1 ≠ kv.1 := by
          intro hcon
          refine hnd.1 ?_
          rw [hcon, ← conformant_keys sh mm hcr]
          exact List.mem_map_of_mem Prod.fst hkv2
        have hsl : sLookup kv.1 ((k1, f) :: sh) = sLookup kv.1 sh := by
          simp only [sLookup]
          rw [if_neg hk2]
        rw [hsl]
        exact ih mm hnd.2 hcr kv hkv2

/-- Looking a key up past a binding with another key. -/
theorem mLookup_cons_ne (k0 : JSStr) (v0 : JSValue) (m : Mapping) (k : JSStr)
    (h : k0 ≠ k) : mLookup k ((k0, v0) :: m) = mLookup k m := by
  simp only [mLookup]
  rw [if_neg h]

/-- The validation error list ignores a binding no declared field names. -/
theorem zodErrs_shift (sh : Schema) (k : JSStr) (v : JSValue) (mm : Mapping)
    (hk : ∀ kf ∈ sh, kf.1 ≠ k) :
    zodErrs sh ((k, v) :: mm) = zodErrs sh mm := by
  unfold zodErrs
  refine List.filterMap_congr fun kf hkf => ?_
  rw [mLookup_cons_ne k v mm kf.1 fun hcon => hk kf hkf hcon.symm]

/-- The rebuilt mapping ignores a binding no declared field names. -/
theorem zodRebuild_shift (sh : Schema) (k : JSStr) (v : JSValue) (mm : Mapping)
    (hk : ∀ kf ∈ sh, kf.1 ≠ k) :
    zodRebuild sh ((k, v) :: mm) = zodRebuild sh mm := by
  unfold zodRebuild
  refine List.filterMap_congr fun kf hkf => ?_
  rw [mLookup_cons_ne k v mm kf.1 fun hcon => hk kf hkf hcon.symm]

/-- A fitting value has the declared type. -/
theorem valueFits_typeMatches (kd : Kind) (v : JSValue) (h : valueFits kd v = true) :
    typeMatches kd v = true := by
  rcases valueFits_kind kd v h with ⟨rfl, s, rfl⟩ | ⟨rfl, x, rfl, _⟩ | ⟨rfl, b, rfl⟩ <;> rfl

/-- Validating a conformant mapping against a nodup schema shape accepts it
and returns it unchanged. -/
theorem zodParse_conformant (shape : Schema) (m : Mapping)
    (hnd : (shape.map Prod.fst).Nodup) (hc : conformant shape m = true) :
    zodParse shape m = .ok m := by
  suffices h : zodErrs shape m = [] ∧ zodRebuild shape m = m by
    unfold zodParse
    rw [h.1, h.2]
    rfl
  induction shape generalizing m with
  | nil =>
    cases m with
    | nil => exact ⟨rfl, rfl⟩
    | cons kv mm =>
      obtain ⟨a, b⟩ := kv
      exact absurd hc (by simp [conformant])
  | cons kf sh ih =>
    obtain ⟨k1, f⟩ := kf
    cases m with
    | nil => exact absurd hc (by simp [conformant])
    | cons kv0 mm =>
      obtain ⟨k2, v⟩ := kv0
      simp only [conformant, Bool.and_eq_true, beq_iff_eq] at hc
      obtain ⟨⟨rfl, hvfit⟩, hcr⟩ := hc
      rw [List.map_cons, List.nodup_cons] at hnd
      have hshift : ∀ kf2 ∈ sh, kf2.1 ≠ k1 := by
        intro kf2 hkf2 hcon
        refine hnd.1 ?_
        show k1 ∈ List.map Prod.fst sh
        rw [← hcon]
        exact List.mem_map_of_mem Prod.fst hkf2
      obtain ⟨he, hr⟩ := ih mm hnd.2 hcr
      have hml : mLookup k1 ((k1, v) :: mm) = some v := by
        simp only [mLookup]
        rw [if_pos trivial]
      have hacc : fieldAccepts f v = true := by
        unfold fieldAccepts
        rw [valueFits_typeMatches f.kind v hvfit, Bool.or_true]
      constructor
      · simp only [zodErrs, List.filterMap_cons, hml, hacc, if_true]
        exact (zodErrs_shift sh k1 v mm hshift).trans he
      · simp only [zodRebuild, List.filterMap_cons, hml, Option.map_some]
        rw [show List.filterMap
            (fun kf => (mLookup kf.1 ((k1, v) :: mm)).map fun v => (kf.1, v)) sh =
            zodRebuild sh ((k1, v) :: mm) from rfl]
        rw [zodRebuild_shift sh k1 v mm hshift, hr]
        rfl

/-- C1: for every schema (its field names pairwise distinct, as the fields
of an object are) and every fully-populated, schema-conformant filter
mapping of scalar string, number and boolean fields, parsing the string
form of the built query with coerceTypes enabled returns exactly the
mapping: parseQuery schema (buildQuery schema m).toString
{coerceTypes := true} = m. -/
theorem parse_build_roundtrip (schema : Schema) (m : Mapping)
    (hnd : (schema.map Prod.fst).Nodup) (hc : conformant schema m = true) :
    parseQuery schema
      (paramsToString (buildQuery schema m ⟨false, false, false, false, none, []⟩))
      ⟨false, false, false, true, none, []⟩ = .ok m := by
  have hfit := conformant_fits schema m hnd hc
  have hkeys := conformant_keys schema m hc
  have hmnd : (m.map Prod.fst).Nodup := by
    rw [hkeys]
    exact hnd
  rw [buildQuery_scalars schema m hfit hmnd]
  unfold parseQuery parseCleaned
  rw [stripQMark_paramsToString, urlParseParams_paramsToString]
  have hpknd : ((m.map fun kv => (kv.1, jsToString kv.2)).map Prod.fst).Nodup := by
    rw [List.map_map]
    rw [show (Prod.fst ∘ fun kv : JSStr × JSValue => (kv.1, jsToString kv.2)) = Prod.fst
      from by funext kv; rfl]
    exact hmnd
  rw [groupPairs_nodup _ hpknd]
  rw [List.map_map]
  rw [show ((fun p : JSStr × JSStr => (p.1, [p.2])) ∘ fun kv : JSStr × JSValue =>
      (kv.1, jsToString kv.2)) = fun kv : JSStr × JSValue => (kv.1, [jsToString kv.2])
    from by funext kv; rfl]
  rw [buildInterim_scalars schema m hfit]
  dsimp only [Except.map]
  rw [cleanObject_default]
  exact zodParse_conformant schema m hnd hc

/-- Concrete round-trip instance: a string with a space, a negative
non-integer number and a boolean survive build-then-parse unchanged. -/
theorem parse_build_roundtrip_witness :
    (([(['a'], (⟨.str, false⟩ : SField)), (['n'], ⟨.num, false⟩),
        (['b'], ⟨.bool, false⟩)] : Schema).map Prod.fst).Nodup ∧
    conformant
      [(['a'], ⟨.str, false⟩), (['n'], ⟨.num, false⟩), (['b'], ⟨.bool, false⟩)]
      [(['a'], .str ['x', ' ', 'y']), (['n'], .num ⟨true, [1, 5], -1⟩),
        (['b'], .bool true)] = true ∧
    parseQuery
      [(['a'], ⟨.str, false⟩), (['n'], ⟨.num, false⟩), (['b'], ⟨.bool, false⟩)]
      (paramsToString (buildQuery
        [(['a'], ⟨.str, false⟩), (['n'], ⟨.num, false⟩), (['b'], ⟨.bool, false⟩)]
        [(['a'], .str ['x', ' ', 'y']), (['n'], .num ⟨true, [1, 5], -1⟩),
          (['b'], .bool true)]
        ⟨false, false, false, false, none, []⟩))
      ⟨false, false, false, true, none, []⟩ =
      .ok [(['a'], .str ['x', ' ', 'y']), (['n'], .num ⟨true, [1, 5], -1⟩),
        (['b'], .bool true)] :=
  ⟨by decide, by rfl,
    parse_build_roundtrip
      [(['a'], ⟨.str, false⟩), (['n'], ⟨.num, false⟩), (['b'], ⟨.bool, false⟩)]
      [(['a'], .str ['x', ' ', 'y']), (['n'], .num ⟨true, [1, 5], -1⟩),
        (['b'], .bool true)]
      (by decide) (by rfl)⟩

end FQP

